import Mathlib

/-!
Verification of the list-item replacer and abbreviation replacer of
rust-pragmatic-segmenter against its natural-language specification.

The development shallowly embeds the relevant Rust code: each onig regex of
the source is translated into a pattern AST (`Pat`) together with a small
executable backtracking matcher whose alternation order and greediness follow
the onig/Ruby semantics the source relies on; the string-rewriting functions
of `list_item_replacer.rs` and `abbreviation_replacer.rs` are translated into
Lean functions over `List Char`.
-/

set_option maxRecDepth 10000

namespace PragSeg

/-! ### Character classes used by the source regexes -/

/-- Onig `\s` for the Ruby syntax: space, tab, newline, vertical tab,
form feed, carriage return. -/
def onigSpace (c : Char) : Bool :=
  c == ' ' || c == '\t' || c == '\n' || c == '\x0b' || c == '\x0c' || c == '\r'

/-- Onig `\S`. -/
def onigNonSpace (c : Char) : Bool := !onigSpace c

/-- Onig `\d` (ASCII digits). -/
def isDigitC (c : Char) : Bool := '0' ≤ c && c ≤ '9'

/-- Onig `.` : any character except a line feed. -/
def dotAny (c : Char) : Bool := c != '\n'

/-- `[a-z]` without case folding. -/
def lowerAZ (c : Char) : Bool := 'a' ≤ c && c ≤ 'z'

/-- `[a-z]` under `REGEX_OPTION_IGNORECASE`. -/
def letterI (c : Char) : Bool := lowerAZ c || ('A' ≤ c && c ≤ 'Z')

/-- Literal `-` (used in the numbered-list lookbehinds). -/
def isDash (c : Char) : Bool := c == '-'

/-- Literal `⁃` (hyphen bullet, U+2043). -/
def isBullet (c : Char) : Bool := c == '⁃'

/-- Literal `s` (the `(?<=s\-)` lookbehind of `numbered_list_regex_1`
really contains a bare `s`). -/
def isLitS (c : Char) : Bool := c == 's'

/-! ### A small backtracking regex engine

`Pat` is the abstract syntax of the subset of onig used by the patterns
this development needs: literals, one-character classes, concatenation,
ordered alternation, lookahead, fixed-shape lookbehind, the `^` and `\A`
anchors, and greedy `+` / `*` repetition. -/

inductive Pat where
  | lit : Char → Pat
  | cls : (Char → Bool) → Pat
  | seq : Pat → Pat → Pat
  | alt : Pat → Pat → Pat
  | la : Pat → Pat
  | lb : Bool → List (Char → Bool) → Pat
  | bol : Pat
  | bos : Pat
  | plus : Pat → Pat
  | star : Pat → Pat

/-- Does `^` hold at `pos` (start of string, or right after a `\n`)? -/
def bolAt (text : List Char) (pos : Nat) : Bool :=
  pos == 0 || text.get? (pos - 1) == some '\n'

/-- Check a fixed-width lookbehind: the characters right before `pos` match
the classes `fs`; when `anchored` is true the lookbehind also contains a
leading `^`, which must hold where the lookbehind text starts. -/
def lbCheck (text : List Char) (anchored : Bool) (fs : List (Char → Bool))
    (pos : Nat) : Bool :=
  fs.length ≤ pos &&
  (List.range fs.length).all (fun k =>
    match text.get? (pos - fs.length + k), fs.get? k with
    | some c, some f => f c
    | _, _ => false) &&
  (!anchored || bolAt text (pos - fs.length))

/-- Greedy Kleene-star driver: end positions after zero or more iterations of
`step`, longest first.  Iterations that do not consume are discarded, which is
sound for the patterns of this development (their repeated bodies always
consume one character). -/
def starRun (step : Nat → List Nat) : Nat → Nat → List Nat
  | 0, pos => [pos]
  | fuel + 1, pos =>
    ((step pos).flatMap (fun e => if pos < e then starRun step fuel e else [])) ++ [pos]

/-- All end positions of a match of `p` starting at `pos`, in backtracking
priority order (first element = the match onig would take). -/
def mrun (text : List Char) : Pat → Nat → List Nat
  | .lit c => fun pos => if text.get? pos == some c then [pos + 1] else []
  | .cls f => fun pos =>
      match text.get? pos with
      | some ch => if f ch then [pos + 1] else []
      | none => []
  | .seq p q => fun pos => (mrun text p pos).flatMap (mrun text q)
  | .alt p q => fun pos => mrun text p pos ++ mrun text q pos
  | .la p => fun pos => if (mrun text p pos).isEmpty then [] else [pos]
  | .lb anchored fs => fun pos => if lbCheck text anchored fs pos then [pos] else []
  | .bol => fun pos => if bolAt text pos then [pos] else []
  | .bos => fun pos => if pos == 0 then [pos] else []
  | .plus p => fun pos =>
      (mrun text p pos).flatMap
        (fun e => if pos < e then starRun (mrun text p) (text.length + 1) e else [])
  | .star p => fun pos => starRun (mrun text p) (text.length + 1) pos

/-- `find_iter`: non-overlapping matches, scanning left to right, resuming at
each match end, as onig's `find_iter` does. -/
def findIterAux (text : List Char) (p : Pat) : Nat → Nat → List (Nat × Nat)
  | 0, _ => []
  | fuel + 1, pos =>
    if pos ≤ text.length then
      match (mrun text p pos).head? with
      | some e =>
        if pos < e then (pos, e) :: findIterAux text p fuel e
        else findIterAux text p fuel (pos + 1)
      | none => findIterAux text p fuel (pos + 1)
    else []

def findIter (text : List Char) (p : Pat) : List (Nat × Nat) :=
  findIterAux text p (text.length + 1) 0

/-- The substring of `text` from `s` (inclusive) to `e` (exclusive). -/
def slice (text : List Char) (s e : Nat) : List Char :=
  (text.take e).drop s

/-- Splice the replacement `f` of each match into the text
(`Regex::replace_all` with a closure). -/
def spliceAux (text : List Char) (f : List Char → List Char) :
    List (Nat × Nat) → Nat → List Char
  | [], last => text.drop last
  | (s, e) :: ms, last =>
    slice text last s ++ f (slice text s e) ++ spliceAux text f ms e

def replaceAllPat (text : List Char) (p : Pat) (f : List Char → List Char) :
    List Char :=
  spliceAux text f (findIter text p) 0

/-! ### The regexes of `list_item_replacer.rs`, as `Pat` values

Each definition mirrors one regex literal of the source, branch by branch
and in the source's alternation order. -/

/-- Right-nested ordered alternation (first pattern has highest priority). -/
def altList : Pat → List Pat → Pat
  | p, [] => p
  | p, q :: rest => .alt p (altList q rest)

/-- `\d{1,2}` (greedy: two digits preferred). -/
def d12 : Pat := .alt (.seq (.cls isDigitC) (.cls isDigitC)) (.cls isDigitC)

/-- `(?=\.\s)` -/
def laDotSpace : Pat := .la (.seq (.lit '.') (.cls onigSpace))

/-- `(?=\.\))` -/
def laDotParen : Pat := .la (.seq (.lit '.') (.lit ')'))

/-- `numbered_list_regex_1`:
`\s\d{1,2}(?=\.\s)|^\d{1,2}(?=\.\s)|\s\d{1,2}(?=\.\))|^\d{1,2}(?=\.\))|(?<=\s\-)\d{1,2}(?=\.\s)|(?<=^\-)\d{1,2}(?=\.\s)|(?<=\s\⁃)\d{1,2}(?=\.\s)|(?<=^\⁃)\d{1,2}(?=\.\s)|(?<=s\-)\d{1,2}(?=\.\))|(?<=^\-)\d{1,2}(?=\.\))|(?<=\s\⁃)\d{1,2}(?=\.\))|(?<=^\⁃)\d{1,2}(?=\.\))` -/
def numberedListRegex1 : Pat :=
  altList (.seq (.cls onigSpace) (.seq d12 laDotSpace)) [
    .seq .bol (.seq d12 laDotSpace),
    .seq (.cls onigSpace) (.seq d12 laDotParen),
    .seq .bol (.seq d12 laDotParen),
    .seq (.lb false [onigSpace, isDash]) (.seq d12 laDotSpace),
    .seq (.lb true [isDash]) (.seq d12 laDotSpace),
    .seq (.lb false [onigSpace, isBullet]) (.seq d12 laDotSpace),
    .seq (.lb true [isBullet]) (.seq d12 laDotSpace),
    .seq (.lb false [isLitS, isDash]) (.seq d12 laDotParen),
    .seq (.lb true [isDash]) (.seq d12 laDotParen),
    .seq (.lb false [onigSpace, isBullet]) (.seq d12 laDotParen),
    .seq (.lb true [isBullet]) (.seq d12 laDotParen)]

/-- `numbered_list_regex_2`:
`(?<=\s)\d{1,2}\.(?=\s)|^\d{1,2}\.(?=\s)|(?<=\s)\d{1,2}\.(?=\))|^\d{1,2}\.(?=\))|(?<=\s\-)\d{1,2}\.(?=\s)|(?<=^\-)\d{1,2}\.(?=\s)|(?<=\s\⁃)\d{1,2}\.(?=\s)|(?<=^\⁃)\d{1,2}\.(?=\s)|(?<=\s\-)\d{1,2}\.(?=\))|(?<=^\-)\d{1,2}\.(?=\))|(?<=\s\⁃)\d{1,2}\.(?=\))|(?<=^\⁃)\d{1,2}\.(?=\))` -/
def numberedListRegex2 : Pat :=
  altList (.seq (.lb false [onigSpace]) (.seq d12 (.seq (.lit '.') (.la (.cls onigSpace))))) [
    .seq .bol (.seq d12 (.seq (.lit '.') (.la (.cls onigSpace)))),
    .seq (.lb false [onigSpace]) (.seq d12 (.seq (.lit '.') (.la (.lit ')')))),
    .seq .bol (.seq d12 (.seq (.lit '.') (.la (.lit ')')))),
    .seq (.lb false [onigSpace, isDash]) (.seq d12 (.seq (.lit '.') (.la (.cls onigSpace)))),
    .seq (.lb true [isDash]) (.seq d12 (.seq (.lit '.') (.la (.cls onigSpace)))),
    .seq (.lb false [onigSpace, isBullet]) (.seq d12 (.seq (.lit '.') (.la (.cls onigSpace)))),
    .seq (.lb true [isBullet]) (.seq d12 (.seq (.lit '.') (.la (.cls onigSpace)))),
    .seq (.lb false [onigSpace, isDash]) (.seq d12 (.seq (.lit '.') (.la (.lit ')')))),
    .seq (.lb true [isDash]) (.seq d12 (.seq (.lit '.') (.la (.lit ')')))),
    .seq (.lb false [onigSpace, isBullet]) (.seq d12 (.seq (.lit '.') (.la (.lit ')')))),
    .seq (.lb true [isBullet]) (.seq d12 (.seq (.lit '.') (.la (.lit ')'))))]

/-- `numbered_list_parens_regex`: `\d{1,2}(?=\)\s)` -/
def numberedListParensRegex : Pat :=
  .seq d12 (.la (.seq (.lit ')') (.cls onigSpace)))

/-- `find_numbered_list_1`: `♨.+\n.+♨|♨.+\r.+♨` -/
def findNumberedList1 : Pat :=
  .alt
    (.seq (.lit '♨') (.seq (.plus (.cls dotAny))
      (.seq (.lit '\n') (.seq (.plus (.cls dotAny)) (.lit '♨')))))
    (.seq (.lit '♨') (.seq (.plus (.cls dotAny))
      (.seq (.lit '\r') (.seq (.plus (.cls dotAny)) (.lit '♨')))))

/-- `find_numbered_list_2`: `for\s\d{1,2}♨\s[a-z]` -/
def findNumberedList2 : Pat :=
  .seq (.lit 'f') (.seq (.lit 'o') (.seq (.lit 'r') (.seq (.cls onigSpace)
    (.seq d12 (.seq (.lit '♨') (.seq (.cls onigSpace) (.cls lowerAZ)))))))

/-- `find_numbered_list_parens`: `☝.+\n.+☝|☝.+\r.+☝` -/
def findNumberedList1Parens : Pat :=
  .alt
    (.seq (.lit '☝') (.seq (.plus (.cls dotAny))
      (.seq (.lit '\n') (.seq (.plus (.cls dotAny)) (.lit '☝')))))
    (.seq (.lit '☝') (.seq (.plus (.cls dotAny))
      (.seq (.lit '\r') (.seq (.plus (.cls dotAny)) (.lit '☝')))))

/-- `space_between_list_items_first_rule` pattern: `(?<=\S\S)\s(?=\S\s*\d+♨)` -/
def spaceBetweenListItemsFirst : Pat :=
  .seq (.lb false [onigNonSpace, onigNonSpace])
    (.seq (.cls onigSpace)
      (.la (.seq (.cls onigNonSpace)
        (.seq (.star (.cls onigSpace)) (.seq (.plus (.cls isDigitC)) (.lit '♨'))))))

/-- `space_between_list_items_second_rule` pattern: `(?<=\S\S)\s(?=\d{1,2}♨)` -/
def spaceBetweenListItemsSecond : Pat :=
  .seq (.lb false [onigNonSpace, onigNonSpace])
    (.seq (.cls onigSpace) (.la (.seq d12 (.lit '♨'))))

/-- `space_between_list_items_third_rule` pattern: `(?<=\S\S)\s(?=\d{1,2}☝)` -/
def spaceBetweenListItemsThird : Pat :=
  .seq (.lb false [onigNonSpace, onigNonSpace])
    (.seq (.cls onigSpace) (.la (.seq d12 (.lit '☝'))))

/-- `alphabetical_list_with_periods` (IGNORECASE):
`(?<=^)[a-z](?=\.)|(?<=\A)[a-z](?=\.)|(?<=\s)[a-z](?=\.)` -/
def alphabeticalListWithPeriods : Pat :=
  altList (.seq .bol (.seq (.cls letterI) (.la (.lit '.')))) [
    .seq .bos (.seq (.cls letterI) (.la (.lit '.'))),
    .seq (.lb false [onigSpace]) (.seq (.cls letterI) (.la (.lit '.')))]

/-- `alphabetical_list_with_parens` (IGNORECASE):
`(?<=\()[a-z]+(?=\))|(?<=^)[a-z]+(?=\))|(?<=\A)[a-z]+(?=\))|(?<=\s)[a-z]+(?=\))` -/
def alphabeticalListWithParens : Pat :=
  altList (.seq (.lb false [fun c => c == '(']) (.seq (.plus (.cls letterI)) (.la (.lit ')')))) [
    .seq .bol (.seq (.plus (.cls letterI)) (.la (.lit ')'))),
    .seq .bos (.seq (.plus (.cls letterI)) (.la (.lit ')'))),
    .seq (.lb false [onigSpace]) (.seq (.plus (.cls letterI)) (.la (.lit ')')))]

/-- `alphabetical_list_letters_and_periods_regex` (IGNORECASE):
`(?<=^)[a-z]\.|(?<=\A)[a-z]\.|(?<=\s)[a-z]\.` -/
def alphabeticalListLettersAndPeriodsRegex : Pat :=
  altList (.seq .bol (.seq (.cls letterI) (.lit '.'))) [
    .seq .bos (.seq (.cls letterI) (.lit '.')),
    .seq (.lb false [onigSpace]) (.seq (.cls letterI) (.lit '.'))]

/-- `extract_alphabetical_list_letters_regex` (IGNORECASE):
`\([a-z]+(?=\))|(?<=^)[a-z]+(?=\))|(?<=\A)[a-z]+(?=\))|(?<=\s)[a-z]+(?=\))` -/
def extractAlphabeticalListLettersRegex : Pat :=
  altList (.seq (.lit '(') (.seq (.plus (.cls letterI)) (.la (.lit ')')))) [
    .seq .bol (.seq (.plus (.cls letterI)) (.la (.lit ')'))),
    .seq .bos (.seq (.plus (.cls letterI)) (.la (.lit ')'))),
    .seq (.lb false [onigSpace]) (.seq (.plus (.cls letterI)) (.la (.lit ')')))]

/-! ### String helpers modelling the Rust std functions the source calls -/

/-- Characters with the Unicode White_Space property
(`char::is_whitespace`). -/
def rustWhitespace (c : Char) : Bool :=
  c ∈ [' ', '\t', '\n', '\x0b', '\x0c', '\r', '\u0085', ' ', ' ',
       ' ', ' ', ' ', ' ', ' ', ' ', ' ',
       ' ', ' ', ' ', ' ', ' ', ' ', ' ',
       ' ', '　']

/-- `str::trim_start`. -/
def trimStart (s : List Char) : List Char := s.dropWhile rustWhitespace

/-- `str::trim_end`. -/
def trimEnd (s : List Char) : List Char :=
  (s.reverse.dropWhile rustWhitespace).reverse

/-- `str::trim`. -/
def trimBoth (s : List Char) : List Char := trimEnd (trimStart s)

/-- `str::trim_matches` with a character set. -/
def trimMatchesSet (set : List Char) (s : List Char) : List Char :=
  ((s.dropWhile set.contains).reverse.dropWhile set.contains).reverse

/-- `str::strip_suffix('.')` followed by `unwrap_or`. -/
def stripSuffixDot (s : List Char) : List Char :=
  if s.getLast? == some '.' then s.dropLast else s

/-- The optional leading sign accepted by `i32::from_str`. -/
def parseSign (s : List Char) : Int × List Char :=
  match s with
  | c :: r =>
    if c == '+' then (1, r) else if c == '-' then (-1, r) else (1, c :: r)
  | [] => (1, [])

/-- The value of a digit string, most significant digit first. -/
def digitsVal (ds : List Char) : Int :=
  ds.foldl (fun a c => a * 10 + (Int.ofNat (c.toNat - 48))) 0

/-- `i32::from_str` (`str::parse::<i32>`): optional sign, at least one ASCII
digit, value within the `i32` range. -/
def parseI32 (s : List Char) : Except Unit Int :=
  let sd := parseSign s
  if sd.2.isEmpty || !sd.2.all isDigitC then .error ()
  else
    let v : Int := sd.1 * digitsVal sd.2
    if -(2 ^ 31) ≤ v && v ≤ 2 ^ 31 - 1 then .ok v else .error ()

/-- `Iterator::collect::<Result<Vec<_>, _>>`: succeeds iff every element
succeeds, stopping at the first error. -/
def collectExcept : List (Except Unit Int) → Except Unit (List Int)
  | [] => .ok []
  | .error e :: _ => .error e
  | .ok v :: rest => (collectExcept rest).map (v :: ·)

/-- `i32` `Display` (for the in-range values this development meets). -/
def intStr (n : Int) : List Char := (toString n).data

/-! ### `list_item_replacer.rs`: the numeral tables -/

/-- `map_from_list`: index of the LAST occurrence of `s` in `l`
(`HashMap::collect` lets later inserts win). -/
def mapFromList (l : List String) (s : String) : Option Int :=
  (l.enum.filterMap (fun p => if p.2 == s then some (Int.ofNat p.1) else none)).getLast?

def romanNumeralsList : List String :=
  ["i", "ii", "iii", "iv", "v", "vi", "vii", "viii", "ix", "x", "xi", "xii",
   "xiii", "xiv", "x", "xi", "xii", "xiii", "xv", "xvi", "xvii", "xviii",
   "xix", "xx"]

def latinNumeralsList : List String :=
  ["a", "b", "c", "d", "e", "f", "g", "h", "i", "j", "k", "l", "m", "n", "o",
   "p", "q", "r", "s", "t", "u", "v", "w", "x", "y", "z"]

def romanNumerals (s : String) : Option Int := mapFromList romanNumeralsList s

def latinNumerals (s : String) : Option Int := mapFromList latinNumeralsList s

/-! ### `list_item_replacer.rs`: alphabetical-list passes -/

/-- `replace_alphabet_list`. -/
def replaceAlphabetList (text : List Char) (whatToReplace : List Char) :
    List Char :=
  replaceAllPat text alphabeticalListLettersAndPeriodsRegex (fun mat =>
    let matWoPeriod := stripSuffixDot mat
    if matWoPeriod == whatToReplace then '\r' :: (matWoPeriod ++ ['∯'])
    else mat)

/-- `str::strip_prefix('(')`. -/
def stripParenPre (s : List Char) : Option (List Char) :=
  match s with
  | c :: rest => if c == '(' then some rest else none
  | [] => none

/-- `replace_alphabet_list_parens`. -/
def replaceAlphabetListParens (text : List Char) (whatToReplace : List Char) :
    List Char :=
  replaceAllPat text extractAlphabeticalListLettersRegex (fun mat =>
    match stripParenPre mat with
    | some matWoParen =>
      if matWoParen == whatToReplace then
        '\r' :: ('&' :: '✂' :: '&' :: matWoParen)
      else mat
    | none => if mat == whatToReplace then '\r' :: mat else mat)

/-- The `is_strange` test of `iterate_alphabet_array`, on the extracted rank
array. -/
def isStrange (ranks : List Int) (ind : Nat) : Bool :=
  let len := ranks.length
  if len ≤ 1 then true
  else if ind == len - 1 then
    (ranks.getD (len - 2) 0 - ranks.getD (len - 1) 0).natAbs != 1
  else if ind == 0 then
    (ranks.getD 1 0 - ranks.getD 0 0 != 1) &&
    ((ranks.getD (len - 1) 0 - ranks.getD 0 0).natAbs != 1)
  else
    (ranks.getD (ind + 1) 0 - ranks.getD ind 0 != 1) &&
    ((ranks.getD (ind - 1) 0 - ranks.getD ind 0).natAbs != 1)

/-- `iterate_alphabet_array`. -/
def iterateAlphabetArray (text : List Char) (regex : Pat) (parens : Bool)
    (useRomanNumeral : Bool) : List Char :=
  let alphabet := if useRomanNumeral then romanNumerals else latinNumerals
  let listArray : List (List Char × Int) :=
    (findIter text regex).filterMap (fun r =>
      (alphabet (String.mk (slice text r.1 r.2))).map
        (fun v => (slice text r.1 r.2, v)))
  let ranks := listArray.map (·.2)
  (List.range listArray.length).foldl (fun result ind =>
    if isStrange ranks ind then result
    else
      let each := (listArray.getD ind ([], 0)).1
      if parens then replaceAlphabetListParens result each
      else replaceAlphabetList result each) text

/-! ### `list_item_replacer.rs`: numbered-list passes -/

/-- `usize` subtraction in release mode: two's-complement wrap-around
(`0 - 1` gives `2^64 - 1`). -/
def usizeSub (a b : Nat) : Nat := (a + (2 ^ 64 - b)) % 2 ^ 64

/-- The keep-condition of the `scan_lists` loop body (negation of the
`continue` guard). -/
def keepEntry (listArray : List Int) (i : Nat) (each : Int) : Bool :=
  (listArray.get? (i + 1) == some (each + 1)) ||
  (listArray.get? (usizeSub i 1) == some (each - 1)) ||
  (each == 0 && listArray.get? (usizeSub i 1) == some 9) ||
  (each == 9 && listArray.get? (i + 1) == some 0)

/-- `substitute_found_list_items`: one substitution pass of `scan_lists` for
the entry `each`. -/
def subPass (regex2 : Pat) (strip : Bool) (replacement : Char) (each : Int)
    (text : List Char) : List Char :=
  replaceAllPat text regex2 (fun mat0 =>
    let mat := if strip then trimBoth mat0 else mat0
    let chomped := if mat.length == 1 then mat
                   else trimMatchesSet ['.', ']', ')'] mat
    if intStr each == chomped then intStr each ++ [replacement] else mat)

/-- `scan_lists`. -/
def scanLists (text : List Char) (regex1 regex2 : Pat) (replacement : Char)
    (strip : Bool) : Except Unit (List Char) :=
  (collectExcept ((findIter text regex1).map
      (fun r => parseI32 (trimStart (slice text r.1 r.2))))).map
    (fun listArray =>
      listArray.enum.foldl (fun result p =>
        if keepEntry listArray p.1 p.2 then
          subPass regex2 strip replacement p.2 result
        else result) text)

/-- `add_line_breaks_for_numbered_list_with_periods`. -/
def addLineBreaksForNumberedListWithPeriods (text : List Char) : List Char :=
  if text.contains '♨' && (findIter text findNumberedList1).isEmpty &&
     (findIter text findNumberedList2).isEmpty then
    replaceAllPat
      (replaceAllPat text spaceBetweenListItemsFirst (fun _ => ['\r']))
      spaceBetweenListItemsSecond (fun _ => ['\r'])
  else text

/-- `add_line_breaks_for_numbered_list_with_parens`. -/
def addLineBreaksForNumberedListWithParens (text : List Char) : List Char :=
  if text.contains '☝' && (findIter text findNumberedList1Parens).isEmpty then
    replaceAllPat text spaceBetweenListItemsThird (fun _ => ['\r'])
  else text

/-- `add_line_break`. -/
def addLineBreak (text : List Char) : Except Unit (List Char) :=
  let t1 := iterateAlphabetArray text alphabeticalListWithPeriods false false
  let t2 := iterateAlphabetArray t1 alphabeticalListWithParens true false
  let t3 := iterateAlphabetArray t2 alphabeticalListWithPeriods false true
  let t4 := iterateAlphabetArray t3 alphabeticalListWithParens true true
  (scanLists t4 numberedListRegex1 numberedListRegex2 '♨' true).bind
    (fun t5 =>
      let t6 := addLineBreaksForNumberedListWithPeriods t5
      let t7 := replaceAllPat t6 (.lit '♨') (fun _ => ['∯'])
      (scanLists t7 numberedListParensRegex numberedListParensRegex '☝'
          false).map
        (fun t8 =>
          let t9 := addLineBreaksForNumberedListWithParens t8
          replaceAllPat t9 (.lit '☝') (fun _ => [])))

/-! ### `abbreviation_replacer.rs`: `PythonSplitLines` -/

/-- The eleven line terminators recognized by `PythonSplitLines::new`, in the
declared pattern order (`LeftmostFirst` match kind: at equal start positions
the earlier pattern wins, so `\r\n` beats `\r`). -/
def lineTerminators : List (List Char) :=
  [['\r', '\n'], ['\n'], ['\r'], ['\x0b'], ['\x0c'], ['\x1c'], ['\x1d'],
   ['\x1e'], ['\u0085'], [' '], [' ']]

/-- The first (in declaration order) terminator matching at `pos`. -/
def termFind (s : List Char) (pos : Nat) : Option (List Char) :=
  lineTerminators.find? (fun t => (s.drop pos).take t.length == t)

/-- Leftmost terminator occurrence at or after `pos`. -/
def findTermFrom (s : List Char) : Nat → Nat → Option (Nat × List Char)
  | 0, _ => none
  | fuel + 1, pos =>
    if pos < s.length then
      match termFind s pos with
      | some t => some (pos, t)
      | none => findTermFrom s fuel (pos + 1)
    else none

/-- The iteration of `PythonSplitLinesKeepEnds::next`, starting at
`last_index = last`. -/
def splitlinesAux (s : List Char) : Nat → Nat → List (List Char)
  | 0, last => if last < s.length then [slice s last s.length] else []
  | fuel + 1, last =>
    match findTermFrom s (s.length + 1) last with
    | some (pos, t) =>
      slice s last (pos + t.length) :: splitlinesAux s fuel (pos + t.length)
    | none => if last < s.length then [slice s last s.length] else []

/-- `PythonSplitLines::splitlines_keepends`. -/
def splitlinesKeepends (s : List Char) : List (List Char) :=
  splitlinesAux s (s.length + 1) 0

/-! ### `abbreviation_replacer.rs`: `python_isupper` -/

/-- Modelled from the Unicode Character Database: the `Cased` property
(`unic_ucd_case::is_cased`, a table outside this repository), restricted
faithfully to the characters this development evaluates — the ASCII letters
plus the titlecase letter `ǅ` (U+01C5, category Lt, which is Cased but
neither Uppercase nor Lowercase). -/
def ucdIsCased (c : Char) : Bool :=
  lowerAZ c || ('A' ≤ c && c ≤ 'Z') || c == 'ǅ'

/-- Modelled from the Unicode Character Database: the `Uppercase` property
(`char::is_uppercase`), restricted as in `ucdIsCased`; `ǅ` is titlecase, not
uppercase. -/
def ucdIsUppercase (c : Char) : Bool := 'A' ≤ c && c ≤ 'Z'

/-- Modelled from the Unicode Character Database: the `Lowercase` property
(`char::is_lowercase`), restricted as in `ucdIsCased`. -/
def ucdIsLowercase (c : Char) : Bool := lowerAZ c

/-- The loop of `python_isupper`, with its early `return false` and the
`cased` accumulator. -/
def pythonIsupperLoop (isCased isUpper isLower : Char → Bool) :
    List Char → Bool → Bool
  | [], cased => cased
  | c :: rest, cased =>
    if isCased c && isUpper c then
      pythonIsupperLoop isCased isUpper isLower rest true
    else if isCased c && isLower c then false
    else pythonIsupperLoop isCased isUpper isLower rest cased

/-- `python_isupper`, parameterized by the three character-property tables it
consults. -/
def pythonIsupperWith (isCased isUpper isLower : Char → Bool)
    (text : List Char) : Bool :=
  pythonIsupperLoop isCased isUpper isLower text false

/-- `python_isupper` over the modelled Unicode tables. -/
def pythonIsupper (text : List Char) : Bool :=
  pythonIsupperWith ucdIsCased ucdIsUppercase ucdIsLowercase text

/-! ### `abbreviation_replacer.rs`: the vocabulary and the per-match
decision of `search_for_abbreviations_in_string` -/

def ABBREVIATIONS : List String :=
  ["adj", "adm", "adv", "al", "ala", "alta", "apr", "arc", "ariz", "ark",
   "art", "assn", "asst", "attys", "aug", "ave", "bart", "bld", "bldg",
   "blvd", "brig", "bros", "btw", "cal", "calif", "capt", "cl", "cmdr", "co",
   "col", "colo", "comdr", "con", "conn", "corp", "cpl", "cres", "ct",
   "d.phil", "dak", "dec", "del", "dept", "det", "dist", "dr", "dr.phil",
   "dr.philos", "drs", "e.g", "ens", "esp", "esq", "etc", "exp", "expy",
   "ext", "feb", "fed", "fla", "ft", "fwy", "fy", "ga", "gen", "gov", "hon",
   "hosp", "hr", "hway", "hwy", "i.e", "ia", "id", "ida", "ill", "inc",
   "ind", "ing", "insp", "is", "jan", "jr", "jul", "jun", "kan", "kans",
   "ken", "ky", "la", "lt", "ltd", "maj", "man", "mar", "mass", "may", "md",
   "me", "med", "messrs", "mex", "mfg", "mich", "min", "minn", "miss",
   "mlle", "mm", "mme", "mo", "mont", "mr", "mrs", "ms", "msgr", "mssrs",
   "mt", "mtn", "neb", "nebr", "nev", "no", "nos", "nov", "nr", "oct", "ok",
   "okla", "ont", "op", "ord", "ore", "p", "pa", "pd", "pde", "penn",
   "penna", "pfc", "ph", "ph.d", "pl", "plz", "pp", "prof", "pvt", "que",
   "rd", "rs", "ref", "rep", "reps", "res", "rev", "rt", "sask", "sec",
   "sen", "sens", "sep", "sept", "sfc", "sgt", "sr", "st", "supt", "surg",
   "tce", "tenn", "tex", "univ", "usafa", "u.s", "ut", "va", "v", "ver",
   "viz", "vs", "vt", "wash", "wis", "wisc", "wy", "wyo", "yuk", "fig"]

def PREPOSITIVE_ABBREVIATIONS : List String :=
  ["adm", "attys", "brig", "capt", "cmdr", "col", "cpl", "det", "dr", "gen",
   "gov", "ing", "lt", "maj", "mr", "mrs", "ms", "mt", "messrs", "mssrs",
   "prof", "ph", "rep", "reps", "rev", "sen", "sens", "sgt", "st", "supt",
   "v", "vs", "fig"]

def NUMBER_ABBREVIATIONS : List String :=
  ["art", "ext", "no", "nos", "p", "pp"]

/-- The three period-masking pattern categories of
`search_for_abbreviations_in_string` (`replace_prepositive_abbr`,
`replace_pre_number_abbr`, `replace_period_of_abbr`). -/
inductive AbbrPattern where
  | prepositive : AbbrPattern
  | number : AbbrPattern
  | general : AbbrPattern
deriving DecidableEq

/-- The per-match decision of `search_for_abbreviations_in_string`
(`scan_for_replacements`): `none` when the match is skipped, otherwise the
category of the regex applied.  `ch` is the next-word-start text of the
match, `abbrLower` the lowercased trimmed match. -/
def scanForReplacements (ch : List Char) (abbrLower : String) :
    Option AbbrPattern :=
  let upper := pythonIsupper ch
  let isPrepositive := PREPOSITIVE_ABBREVIATIONS.contains abbrLower
  if !upper || isPrepositive then
    some (if isPrepositive then .prepositive
          else if NUMBER_ABBREVIATIONS.contains abbrLower then .number
          else .general)
  else none

/-- ASCII restriction of `str::to_lowercase`, faithful on the ASCII texts
this development evaluates. -/
def asciiLower (c : Char) : Char :=
  if 65 ≤ c.toNat && c.toNat ≤ 90 then Char.ofNat (c.toNat + 32) else c

/-- `lowered.contains(abbr)`: substring containment. -/
def strContains (text abbr : List Char) : Bool :=
  (List.range (text.length + 1)).any
    (fun i => (text.drop i).take abbr.length == abbr)

/-- One character of a verbatim-interpolated abbreviation under IGNORECASE
(`re_i`): a period is the `.` metacharacter, an ASCII lowercase letter
matches itself or its uppercase form, anything else is a literal. -/
def litIPat (c : Char) : Pat :=
  if c == '.' then .cls dotAny
  else if lowerAZ c then .cls (fun d => d == c || d.toNat + 32 == c.toNat)
  else .lit c

/-- `abbr_match`: `(?:^|\s|\r|\n){abbr}` compiled with IGNORECASE (`re_i`),
the abbreviation interpolated verbatim, so its periods act as
metacharacters. -/
def abbrMatchPat (abbr : List Char) : Pat :=
  (abbr.map litIPat).foldl .seq
    (.alt .bol (.alt (.cls onigSpace) (.alt (.lit '\r') (.lit '\n'))))

/-- `next_word_start`: `(?<={abbr-with-escaped-periods} ).{1}` - onig reads
the braces, which quantify nothing, literally, so the lookbehind is the
literal text `\x7b<abbr>\x7d ` (the escape `\.` denoting the period back
again), followed by one `.` character. -/
def nextWordStartPat (abbr : List Char) : Pat :=
  .seq
    (.lb false
      (((Char.ofNat 123 :: abbr) ++ [Char.ofNat 125, ' ']).map
        (fun c d => d == c)))
    (.cls dotAny)

/-- `replace_prepositive_abbr`: the template
`(?<=\s{abbr})\.(?=(\s|:\d+))` with `abbr` interpolated verbatim. -/
def prepositiveAbbrPattern (abbr : List Char) : List Char :=
  "(?<=\\s".data ++ abbr ++ ")\\.(?=(\\s|:\\d+))".data

/-- `replace_pre_number_abbr`: the template
`(?<=\s{abbr})\.(?=(\s\d|\s+\())` with `abbr` interpolated verbatim. -/
def preNumberAbbrPattern (abbr : List Char) : List Char :=
  "(?<=\\s".data ++ abbr ++ ")\\.(?=(\\s\\d|\\s+\\())".data

/-- `replace_period_of_abbr`: the template
`(?<=\s{abbr})\.(?=((\.|\:|-|\?|,)|(\s([a-z]|I\s|I\x27m|I\x27ll|\d|\())))`
(`\x27` standing for the apostrophe of the source literal) with `abbr`
interpolated verbatim. -/
def generalAbbrPattern (abbr : List Char) : List Char :=
  "(?<=\\s".data ++ abbr ++
    ")\\.(?=((\\.|\\:|-|\\?|,)|(\\s([a-z]|I\\s|I\x27m|I\x27ll|\\d|\\())))".data

/-- The pattern strings `search_for_abbreviations_in_string` compiles at
run time (`re(&regex).unwrap()`) while processing one vocabulary entry
`abbr` on `text`, in order: one per non-skipped match of the entry's
`abbr_match` regex, the trimmed matched text (which shadows `abbr`)
interpolated verbatim into the template chosen by
`scan_for_replacements`. -/
def runtimeAbbrPatterns (text : List Char) (abbr : List Char) :
    List (List Char) :=
  if !strContains (text.map asciiLower) abbr then []
  else
    let ms := findIter text (abbrMatchPat abbr)
    let charArray := findIter text (nextWordStartPat abbr)
    (List.range ms.length).filterMap (fun ind =>
      match ms.get? ind with
      | none => none
      | some (a, b) =>
        let abbrM := trimBoth (slice text a b)
        let ch := match charArray.get? ind with
          | some (c, d) => slice text c d
          | none => []
        match scanForReplacements ch ⟨abbrM.map asciiLower⟩ with
        | none => none
        | some .prepositive => some (prepositiveAbbrPattern abbrM)
        | some .number => some (preNumberAbbrPattern abbrM)
        | some .general => some (generalAbbrPattern abbrM))

/-- Modelled from the spec: onig compilation of a runtime pattern (the
compiler itself is outside this repository) requires the unescaped group
parentheses of the pattern to balance; a group left unclosed, such as a
dangling `(?<=`, is a syntax error, `re` returns `Err`, and the `unwrap`
after it panics.  The scan treats a backslash-escaped character as a
literal. -/
def onigGroupsBalancedAux : List Char → Nat → Bool
  | [], depth => depth == 0
  | c :: rest, depth =>
    if c == '\\' then
      match rest with
      | [] => depth == 0
      | _ :: rest2 => onigGroupsBalancedAux rest2 depth
    else if c == '(' then onigGroupsBalancedAux rest (depth + 1)
    else if c == ')' then
      match depth with
      | 0 => false
      | d + 1 => onigGroupsBalancedAux rest d
    else onigGroupsBalancedAux rest depth

def onigGroupsBalanced (pat : List Char) : Bool :=
  onigGroupsBalancedAux pat 0

/-! ### Spec-side definitions

Each of the following definitions transcribes the wording of one claim of
the specification (not the source), for comparison with the definitions
above. -/

/-- The keep-decision of the adjacency test as the spec words it: skip all
when the array has at most one element; at the last index keep iff the
absolute difference with the previous rank is 1; at index 0 keep iff
`rank[1] - rank[0] != 1` and `|rank[n-1] - rank[0]| != 1`; otherwise keep
iff `rank[i+1] - rank[i] != 1` and `|rank[i-1] - rank[i]| != 1`. -/
def claimKeepAlphabet (ranks : List Int) (ind : Nat) : Bool :=
  let len := ranks.length
  if len ≤ 1 then false
  else if ind == len - 1 then
    (ranks.getD (len - 2) 0 - ranks.getD (len - 1) 0).natAbs == 1
  else if ind == 0 then
    (ranks.getD 1 0 - ranks.getD 0 0 != 1) &&
    ((ranks.getD (len - 1) 0 - ranks.getD 0 0).natAbs != 1)
  else
    (ranks.getD (ind + 1) 0 - ranks.getD ind 0 != 1) &&
    ((ranks.getD (ind - 1) 0 - ranks.getD ind 0).natAbs != 1)

/-- The keep-decision that actually governs the rewrite (the amended claim):
the index-0 and middle cases are the negations of the spec's conditions. -/
def amendedKeepAlphabet (ranks : List Int) (ind : Nat) : Bool :=
  let len := ranks.length
  if len ≤ 1 then false
  else if ind == len - 1 then
    (ranks.getD (len - 2) 0 - ranks.getD (len - 1) 0).natAbs == 1
  else if ind == 0 then
    (ranks.getD 1 0 - ranks.getD 0 0 == 1) ||
    ((ranks.getD (len - 1) 0 - ranks.getD 0 0).natAbs == 1)
  else
    (ranks.getD (ind + 1) 0 - ranks.getD ind 0 == 1) ||
    ((ranks.getD (ind - 1) 0 - ranks.getD ind 0).natAbs == 1)

/-- Adjacency of an extracted numeric entry as the claim words it: the entry
differs by exactly one from the immediately preceding or immediately
following entry, or wraps 9 to 0. -/
def claimAdjacentEntry (l : List Int) (i : Nat) : Bool :=
  let each := l.getD i 0
  (match l.get? (i + 1) with
   | some next => (next - each).natAbs == 1 || (each == 9 && next == 0)
   | none => false) ||
  (if i == 0 then false
   else match l.get? (i - 1) with
   | some prev => (prev - each).natAbs == 1 || (each == 0 && prev == 9)
   | none => false)

/-- The entries of the extracted list for which `scan_lists` runs a
substitution pass. -/
def keptEntries (l : List Int) : List (Nat × Int) :=
  l.enum.filter (fun p => keepEntry l p.1 p.2)

/-- `scan_lists` as the amended claim words it: a substitution pass runs
for exactly the kept entries, in order. -/
def scanListsAmended (text : List Char) (regex1 regex2 : Pat)
    (replacement : Char) (strip : Bool) : Except Unit (List Char) :=
  (collectExcept ((findIter text regex1).map
      (fun r => parseI32 (trimStart (slice text r.1 r.2))))).map
    (fun listArray =>
      (keptEntries listArray).foldl
        (fun result p => subPass regex2 strip replacement p.2 result) text)

/-- The claim's first anti-pattern for the numbered-periods pass:
`♨.+\n.+♨` alone (without the `\r` branch the source also has). -/
def claimAntiPattern1 : Pat :=
  .seq (.lit '♨') (.seq (.plus (.cls dotAny))
    (.seq (.lit '\n') (.seq (.plus (.cls dotAny)) (.lit '♨'))))

/-- The `\r` branch of `find_numbered_list_1`: `♨.+\r.+♨`. -/
def antiPattern1CR : Pat :=
  .seq (.lit '♨') (.seq (.plus (.cls dotAny))
    (.seq (.lit '\r') (.seq (.plus (.cls dotAny)) (.lit '♨'))))

/-- The two space-to-`\r` line-break insertion rules of the
numbered-periods pass, in order. -/
def numberedPeriodsRules (text : List Char) : List Char :=
  replaceAllPat
    (replaceAllPat text spaceBetweenListItemsFirst (fun _ => ['\r']))
    spaceBetweenListItemsSecond (fun _ => ['\r'])

/-- The numbered-periods line-break stage as the claim words it: the rules
are applied iff the text contains `♨` and neither `♨.+\n.+♨` nor
`for\s\d{1,2}♨\s[a-z]` matches. -/
def claimAddLineBreaksPeriods (text : List Char) : List Char :=
  if text.contains '♨' && (findIter text claimAntiPattern1).isEmpty &&
     (findIter text findNumberedList2).isEmpty then
    numberedPeriodsRules text
  else text

/-- The numbered-periods line-break stage as the amended claim words it:
the first anti-pattern also has the `♨.+\r.+♨` branch. -/
def amendedAddLineBreaksPeriods (text : List Char) : List Char :=
  if text.contains '♨' && (findIter text claimAntiPattern1).isEmpty &&
     (findIter text antiPattern1CR).isEmpty &&
     (findIter text findNumberedList2).isEmpty then
    numberedPeriodsRules text
  else text

/-- The period-variant rewrite of a kept marker as the claim words it:
an occurrence `<letter>.` becomes `\r<letter>∯`; any other match is left
unchanged. -/
def claimPeriodRewrite (target : List Char) (mat : List Char) : List Char :=
  if mat == target ++ ['.'] then '\r' :: (target ++ ['∯']) else mat

/-- The paren-variant rewrite of a kept marker as the claim words it:
`(<letter>` (the closing paren is not part of the match) becomes
`\r&✂&<letter>`, a bare `<letter>` becomes `\r<letter>`; any other match is
left unchanged. -/
def claimParenRewrite (target : List Char) (mat : List Char) : List Char :=
  if mat == '(' :: target then '\r' :: ('&' :: '✂' :: '&' :: target)
  else if mat == target then '\r' :: target
  else mat

/-- The per-match decision of the abbreviation scan as the claim words it:
the match is skipped exactly when the next-word-start text is
all-cased-uppercase and the abbreviation is not prepositive; otherwise the
pattern is prepositive, number or general by set membership. -/
def claimScanForReplacements (ch : List Char) (abbrLower : String) :
    Option AbbrPattern :=
  let upper := pythonIsupper ch
  let isPrepositive := PREPOSITIVE_ABBREVIATIONS.contains abbrLower
  if upper && !isPrepositive then none
  else
    some (if isPrepositive then .prepositive
          else if NUMBER_ABBREVIATIONS.contains abbrLower then .number
          else .general)

/-- `str.isupper` as the claim (and Python's documentation) words it: at
least one character with the Cased property exists and every Cased
character is uppercase. -/
def claimIsAllCasedUppercase (s : List Char) : Bool :=
  s.any ucdIsCased && s.all (fun c => !ucdIsCased c || ucdIsUppercase c)

/-- Does one of the eleven line terminators occur at position `q`? -/
def termAtB (s : List Char) (q : Nat) : Bool :=
  lineTerminators.any (fun t => (s.drop q).take t.length == t)

/-- No line terminator occurs anywhere in `l`. -/
def termFreeB (l : List Char) : Bool :=
  (List.range l.length).all (fun q => !termAtB l q)

/-- The shape the claim requires of a yielded line: terminator-free, or a
terminator-free body followed by exactly one of the eleven terminators. -/
def lineShapeB (l : List Char) : Bool :=
  termFreeB l ||
  lineTerminators.any (fun t =>
    t.length ≤ l.length && (l.drop (l.length - t.length) == t) &&
    termFreeB (l.take (l.length - t.length)))

/-- No `\r\n` occurrence is torn across two yielded lines: no line ends with
`\r` while the next begins with `\n`. -/
def crlfJoinedB : List (List Char) → Bool
  | a :: b :: rest =>
    (!(a.getLast? == some '\r' && b.head? == some '\n')) &&
    crlfJoinedB (b :: rest)
  | _ => true

/-! ## Theorems -/

/-! ### Generic facts about `slice`, the matcher, and folds -/

theorem slice_eq (text : List Char) (a b : Nat) :
    slice text a b = (text.drop a).take (b - a) :=
  List.drop_take b a text

theorem slice_nil_of_le {text : List Char} {a b : Nat} (h : b ≤ a) :
    slice text a b = [] := by
  rw [slice_eq]
  have : b - a = 0 := by omega
  simp [this]

theorem slice_zero_length (text : List Char) :
    slice text 0 text.length = text := by
  simp [slice_eq]

theorem get?_some_lt {text : List Char} {a : Nat} {ch : Char}
    (h : text.get? a = some ch) : a < text.length := by
  rw [List.get?_eq_getElem?] at h
  exact (List.getElem?_eq_some.mp h).1

theorem slice_cons {text : List Char} {a b : Nat} {ch : Char}
    (h : text.get? a = some ch) (hab : a < b) :
    slice text a b = ch :: slice text (a + 1) b := by
  have ha : a < text.length := get?_some_lt h
  rw [List.get?_eq_getElem?, List.getElem?_eq_some] at h
  obtain ⟨hlt, helem⟩ := h
  rw [slice_eq, slice_eq, List.drop_eq_getElem_cons hlt, helem]
  have : b - a = (b - (a + 1)) + 1 := by omega
  rw [this, List.take_succ_cons]

theorem slice_append_mid (text : List Char) {a m b : Nat}
    (h1 : a ≤ m) (h2 : m ≤ b) :
    slice text a b = slice text a m ++ slice text m b := by
  rw [slice_eq, slice_eq, slice_eq]
  have hb : b - a = (m - a) + (b - m) := by omega
  rw [hb, List.take_add, List.drop_drop]
  have : a + (m - a) = m := by omega
  rw [this]

theorem slice_head? {text : List Char} {a b : Nat}
    (hab : a < b) (ha : a < text.length) :
    (slice text a b).head? = text.get? a := by
  have h : text.get? a = some (text.get ⟨a, ha⟩) := List.get?_eq_get ha
  rw [slice_cons h hab, h]
  rfl

theorem slice_ne_nil {text : List Char} {a b : Nat}
    (hab : a < b) (ha : a < text.length) :
    slice text a b ≠ [] := by
  have h : text.get? a = some (text.get ⟨a, ha⟩) := List.get?_eq_get ha
  rw [slice_cons h hab]
  exact List.cons_ne_nil _ _

/-! Inversion lemmas for the matcher. -/

theorem mem_mrun_lit {text : List Char} {c : Char} {pos e : Nat}
    (h : e ∈ mrun text (.lit c) pos) :
    text.get? pos = some c ∧ e = pos + 1 := by
  simp only [mrun] at h
  split at h
  · next hc =>
    simp only [List.mem_singleton] at h
    exact ⟨by simpa using hc, h⟩
  · simp at h

theorem mem_mrun_cls {text : List Char} {f : Char → Bool} {pos e : Nat}
    (h : e ∈ mrun text (.cls f) pos) :
    ∃ ch, text.get? pos = some ch ∧ f ch = true ∧ e = pos + 1 := by
  simp only [mrun] at h
  split at h
  · next ch hch =>
    split at h
    · next hf => simp only [List.mem_singleton] at h; exact ⟨ch, hch, hf, h⟩
    · simp at h
  · simp at h

theorem mem_mrun_seq {text : List Char} {p q : Pat} {pos e : Nat}
    (h : e ∈ mrun text (.seq p q) pos) :
    ∃ m, m ∈ mrun text p pos ∧ e ∈ mrun text q m := by
  simp only [mrun, List.mem_flatMap] at h
  exact h

theorem mem_mrun_alt {text : List Char} {p q : Pat} {pos e : Nat}
    (h : e ∈ mrun text (.alt p q) pos) :
    e ∈ mrun text p pos ∨ e ∈ mrun text q pos := by
  simp only [mrun, List.mem_append] at h
  exact h

theorem mem_mrun_la {text : List Char} {p : Pat} {pos e : Nat}
    (h : e ∈ mrun text (.la p) pos) : e = pos := by
  simp only [mrun] at h
  split at h <;> simp_all

theorem mem_mrun_lb {text : List Char} {anchored : Bool}
    {fs : List (Char → Bool)} {pos e : Nat}
    (h : e ∈ mrun text (.lb anchored fs) pos) : e = pos := by
  simp only [mrun] at h
  split at h <;> simp_all

theorem mem_mrun_bol {text : List Char} {pos e : Nat}
    (h : e ∈ mrun text .bol pos) : e = pos := by
  simp only [mrun] at h
  split at h <;> simp_all

theorem mem_mrun_bos {text : List Char} {pos e : Nat}
    (h : e ∈ mrun text .bos pos) : e = pos := by
  simp only [mrun] at h
  split at h <;> simp_all

theorem mem_starRun_cls {text : List Char} {f : Char → Bool} :
    ∀ {fuel pos e : Nat}, e ∈ starRun (mrun text (.cls f)) fuel pos →
      pos ≤ e ∧ (slice text pos e).all f = true := by
  intro fuel
  induction fuel with
  | zero =>
    intro pos e h
    simp only [starRun, List.mem_singleton] at h
    subst h
    exact ⟨Nat.le_refl _, by rw [slice_nil_of_le (Nat.le_refl _)]; rfl⟩
  | succ n ih =>
    intro pos e h
    simp only [starRun, List.mem_append, List.mem_singleton,
      List.mem_flatMap] at h
    rcases h with ⟨e1, he1, he⟩ | rfl
    · obtain ⟨ch, hch, hf, rfl⟩ := mem_mrun_cls he1
      rw [if_pos (Nat.lt_succ_self pos)] at he
      obtain ⟨hle, hall⟩ := ih he
      refine ⟨by omega, ?_⟩
      rw [slice_cons hch (by omega)]
      simp [hall, hf]
    · exact ⟨Nat.le_refl _, by rw [slice_nil_of_le (Nat.le_refl _)]; rfl⟩

theorem mem_plus_cls {text : List Char} {f : Char → Bool} {pos e : Nat}
    (h : e ∈ mrun text (.plus (.cls f)) pos) :
    pos < e ∧ (slice text pos e).all f = true := by
  simp only [mrun, List.mem_flatMap] at h
  obtain ⟨e1, he1, he⟩ := h
  obtain ⟨ch, hch, hf, rfl⟩ := mem_mrun_cls he1
  rw [if_pos (Nat.lt_succ_self pos)] at he
  obtain ⟨hle, hall⟩ := mem_starRun_cls he
  refine ⟨by omega, ?_⟩
  rw [slice_cons hch (by omega)]
  simp [hall, hf]

theorem mem_mrun_d12 {text : List Char} {pos e : Nat}
    (h : e ∈ mrun text d12 pos) :
    (slice text pos e).all isDigitC = true ∧ slice text pos e ≠ [] ∧
      (slice text pos e).length ≤ 2 := by
  rcases mem_mrun_alt h with h2 | h1
  · obtain ⟨m, hm, he⟩ := mem_mrun_seq h2
    obtain ⟨c1, hc1, hf1, rfl⟩ := mem_mrun_cls hm
    obtain ⟨c2, hc2, hf2, rfl⟩ := mem_mrun_cls he
    rw [slice_cons hc1 (by omega), slice_cons hc2 (by omega),
      slice_nil_of_le (Nat.le_refl _)]
    simp [hf1, hf2]
  · obtain ⟨c1, hc1, hf1, rfl⟩ := mem_mrun_cls h1
    rw [slice_cons hc1 (by omega), slice_nil_of_le (Nat.le_refl _)]
    simp [hf1]

theorem mem_findIterAux {text : List Char} {p : Pat} :
    ∀ {fuel pos : Nat} {r : Nat × Nat}, r ∈ findIterAux text p fuel pos →
      r.2 ∈ mrun text p r.1 := by
  intro fuel
  induction fuel with
  | zero => intro pos r h; simp [findIterAux] at h
  | succ n ih =>
    intro pos r h
    simp only [findIterAux] at h
    split at h
    · split at h
      · next e0 hh =>
        split at h
        · rcases List.mem_cons.mp h with rfl | h'
          · exact List.mem_of_mem_head? (by rw [Option.mem_def]; exact hh)
          · exact ih h'
        · exact ih h
      · exact ih h
    · simp at h

/-- `foldl` over a guarded step equals `foldl` over the filtered list. -/
theorem foldl_guard_eq_filter {α β : Type} (P : β → Bool) (f : α → β → α) :
    ∀ (l : List β) (init : α),
      l.foldl (fun a x => if P x then f a x else a) init =
        (l.filter P).foldl f init := by
  intro l
  induction l with
  | nil => intro init; rfl
  | cons x xs ih =>
    intro init
    cases hx : P x <;> simp [List.filter_cons, hx, ih]

/-- Replacement splicing only looks at the matched slices: closures that
agree on every match give the same output. -/
theorem spliceAux_congr {text : List Char} {f g : List Char → List Char} :
    ∀ {ms : List (Nat × Nat)} {last : Nat},
      (∀ r ∈ ms, f (slice text r.1 r.2) = g (slice text r.1 r.2)) →
      spliceAux text f ms last = spliceAux text g ms last := by
  intro ms
  induction ms with
  | nil => intro last _; rfl
  | cons r rs ih =>
    intro last h
    simp only [spliceAux]
    rw [h r (List.mem_cons_self _ _), ih (fun x hx => h x (List.mem_cons_of_mem _ hx))]

theorem replaceAllPat_congr {text : List Char} {p : Pat}
    {f g : List Char → List Char}
    (h : ∀ r ∈ findIter text p, f (slice text r.1 r.2) = g (slice text r.1 r.2)) :
    replaceAllPat text p f = replaceAllPat text p g :=
  spliceAux_congr h

/-- Match end positions never precede the start position. -/
theorem starRun_ge {step : Nat → List Nat}
    (hstep : ∀ pos e, e ∈ step pos → pos ≤ e) :
    ∀ {fuel pos e : Nat}, e ∈ starRun step fuel pos → pos ≤ e := by
  intro fuel
  induction fuel with
  | zero =>
    intro pos e h
    simp only [starRun, List.mem_singleton] at h
    omega
  | succ n ih =>
    intro pos e h
    simp only [starRun, List.mem_append, List.mem_singleton,
      List.mem_flatMap] at h
    rcases h with ⟨e1, he1, he⟩ | rfl
    · split at he
      · have h1 := hstep pos e1 he1
        have h2 := ih he
        omega
      · simp at he
    · exact Nat.le_refl _

theorem mrun_ge {text : List Char} :
    ∀ {p : Pat} {pos e : Nat}, e ∈ mrun text p pos → pos ≤ e := by
  intro p
  induction p with
  | lit c =>
    intro pos e h
    simp only [mrun] at h
    split at h <;> simp_all
  | cls f =>
    intro pos e h
    obtain ⟨_, _, _, rfl⟩ := mem_mrun_cls h
    omega
  | seq p q ihp ihq =>
    intro pos e h
    obtain ⟨m, hm, he⟩ := mem_mrun_seq h
    exact Nat.le_trans (ihp hm) (ihq he)
  | alt p q ihp ihq =>
    intro pos e h
    rcases mem_mrun_alt h with h | h
    · exact ihp h
    · exact ihq h
  | la p ih =>
    intro pos e h
    rw [mem_mrun_la h]
  | lb anchored fs =>
    intro pos e h
    rw [mem_mrun_lb h]
  | bol =>
    intro pos e h
    rw [mem_mrun_bol h]
  | bos =>
    intro pos e h
    rw [mem_mrun_bos h]
  | plus p ih =>
    intro pos e h
    simp only [mrun, List.mem_flatMap] at h
    obtain ⟨e1, he1, he⟩ := h
    split at he
    · have := starRun_ge (fun a b hb => ih hb) he
      have := ih he1
      omega
    · simp at he
  | star p ih =>
    intro pos e h
    exact starRun_ge (fun a b hb => ih hb) h

/-- A pattern whose matches always consume at least one character. -/
def Consuming (p : Pat) : Prop :=
  ∀ (text : List Char) (pos e : Nat), e ∈ mrun text p pos → pos < e

theorem consuming_seq_lit {c : Char} {q : Pat} : Consuming (.seq (.lit c) q) := by
  intro text pos e h
  obtain ⟨m, hm, he⟩ := mem_mrun_seq h
  obtain ⟨_, rfl⟩ := mem_mrun_lit hm
  have := @mrun_ge text _ _ _ he
  omega

/-- For a consuming pattern, the match scan comes back empty exactly when
the pattern matches nowhere in the text. -/
theorem findIterAux_eq_nil_iff {text : List Char} {p : Pat}
    (hcons : Consuming p) :
    ∀ {fuel start : Nat},
      (findIterAux text p fuel start = [] ↔
        ∀ pos, start ≤ pos → pos ≤ text.length → pos < start + fuel →
          mrun text p pos = []) := by
  intro fuel
  induction fuel with
  | zero =>
    intro start
    simp only [findIterAux]
    constructor
    · intro _ pos h1 _ h3
      omega
    · intro _
      trivial
  | succ n ih =>
    intro start
    simp only [findIterAux]
    split
    · next hstart =>
      rcases hh : (mrun text p start).head? with _ | e
      · have hnil : mrun text p start = [] := List.head?_eq_none_iff.mp hh
        have hred : (match (none : Option Nat) with
            | some e => if start < e then (start, e) :: findIterAux text p n e
                        else findIterAux text p n (start + 1)
            | none => findIterAux text p n (start + 1)) =
            findIterAux text p n (start + 1) := rfl
        rw [hred, ih]
        constructor
        · intro hall pos h1 h2 h3
          rcases Nat.eq_or_lt_of_le h1 with rfl | hlt
          · exact hnil
          · exact hall pos hlt h2 (by omega)
        · intro hall pos h1 h2 h3
          exact hall pos (by omega) h2 (by omega)
      · have he : e ∈ mrun text p start :=
          List.mem_of_mem_head? (by rw [Option.mem_def]; exact hh)
        have hlt : start < e := hcons text start e he
        have hred : (match (some e : Option Nat) with
            | some e => if start < e then (start, e) :: findIterAux text p n e
                        else findIterAux text p n (start + 1)
            | none => findIterAux text p n (start + 1)) =
            if start < e then (start, e) :: findIterAux text p n e
            else findIterAux text p n (start + 1) := rfl
        rw [hred, if_pos hlt]
        constructor
        · intro hcontra
          exact absurd hcontra (List.cons_ne_nil _ _)
        · intro hall
          have := hall start (Nat.le_refl _) hstart (by omega)
          rw [this] at hh
          simp at hh
    · next hstart =>
      constructor
      · intro _ pos h1 h2 _
        omega
      · intro _
        trivial

theorem findIter_eq_nil_iff {text : List Char} {p : Pat}
    (hcons : Consuming p) :
    (findIter text p = [] ↔
      ∀ pos, pos ≤ text.length → mrun text p pos = []) := by
  rw [findIter, findIterAux_eq_nil_iff hcons]
  constructor
  · intro h pos h2
    exact h pos (Nat.zero_le _) h2 (by omega)
  · intro h pos _ h2 _
    exact h pos h2

theorem findIter_alt_nil_iff {text : List Char} {p q : Pat}
    (hp : Consuming p) (hq : Consuming q) :
    (findIter text (.alt p q) = []) ↔
      (findIter text p = [] ∧ findIter text q = []) := by
  have hpq : Consuming (.alt p q) := by
    intro t pos e h
    rcases mem_mrun_alt h with h | h
    · exact hp t pos e h
    · exact hq t pos e h
  rw [findIter_eq_nil_iff hpq, findIter_eq_nil_iff hp, findIter_eq_nil_iff hq]
  constructor
  · intro h
    constructor <;> intro pos hpos <;> have hh := h pos hpos <;>
      simp only [mrun] at hh
    · exact (List.append_eq_nil.mp hh).1
    · exact (List.append_eq_nil.mp hh).2
  · intro h pos hpos
    simp [mrun, h.1 pos hpos, h.2 pos hpos]

theorem findIter_alt_isEmpty {text : List Char} {p q : Pat}
    (hp : Consuming p) (hq : Consuming q) :
    (findIter text (.alt p q)).isEmpty =
      ((findIter text p).isEmpty && (findIter text q).isEmpty) := by
  rw [Bool.eq_iff_iff]
  simp only [Bool.and_eq_true, List.isEmpty_iff]
  exact findIter_alt_nil_iff hp hq

/-- Replacing all matches of a single-character literal is character-wise
substitution. -/
theorem spliceAux_lit_flatMap {text : List Char} {c : Char}
    {f : List Char → List Char} :
    ∀ {fuel pos last : Nat}, text.length + 1 - pos ≤ fuel → last ≤ pos →
      spliceAux text f (findIterAux text (.lit c) fuel pos) last =
        slice text last pos ++
          (text.drop pos).flatMap
            (fun ch => if ch == c then f [c] else [ch]) := by
  intro fuel
  induction fuel with
  | zero =>
    intro pos last hf hl
    have hpos : text.length < pos := by omega
    simp only [findIterAux, spliceAux]
    have h1 : List.drop pos text = [] := List.drop_eq_nil_of_le (by omega)
    rw [h1, List.flatMap_nil, List.append_nil, slice_eq,
      List.take_of_length_le]
    simp only [List.length_drop]
    omega
  | succ n ih =>
    intro pos last hf hl
    simp only [findIterAux]
    by_cases hle : pos ≤ text.length
    · rw [if_pos hle]
      rcases hget : text.get? pos with _ | ch
      · have hpos : text.length ≤ pos := by
          have hg := hget
          rw [List.get?_eq_getElem?, List.getElem?_eq_none_iff] at hg
          exact hg
        have hrun : mrun text (.lit c) pos = [] := by
          simp only [mrun]
          rw [hget]
          rfl
        rw [hrun]
        simp only [List.head?_nil]
        rw [ih (by omega) (by omega)]
        have h1 : List.drop (pos + 1) text = [] :=
          List.drop_eq_nil_of_le (by omega)
        have h2 : List.drop pos text = [] :=
          List.drop_eq_nil_of_le (by omega)
        rw [h1, h2]
        simp only [List.flatMap_nil, List.append_nil]
        rw [slice_eq, slice_eq, List.take_of_length_le,
          List.take_of_length_le]
        · simp only [List.length_drop]; omega
        · simp only [List.length_drop]; omega
      · have hdrop : List.drop pos text = ch :: List.drop (pos + 1) text := by
          have hg := hget
          rw [List.get?_eq_getElem?, List.getElem?_eq_some] at hg
          obtain ⟨hlt2, helem⟩ := hg
          rw [List.drop_eq_getElem_cons hlt2, helem]
        by_cases hc : ch = c
        · subst hc
          have hrun : mrun text (.lit ch) pos = [pos + 1] := by
            simp only [mrun]
            rw [hget]
            simp
          rw [hrun]
          simp only [List.head?_cons]
          rw [if_pos (Nat.lt_succ_self pos)]
          simp only [spliceAux]
          rw [ih (by omega) (by omega), hdrop, List.flatMap_cons,
            if_pos (by simp), slice_cons hget (Nat.lt_succ_self pos),
            slice_nil_of_le (Nat.le_refl _)]
          simp
        · have hrun : mrun text (.lit c) pos = [] := by
            simp only [mrun]
            rw [hget]
            simp [hc]
          rw [hrun]
          simp only [List.head?_nil]
          rw [ih (by omega) (by omega), hdrop, List.flatMap_cons,
            if_neg (by simp [hc]),
            slice_append_mid text hl (Nat.le_succ pos),
            slice_cons hget (Nat.lt_succ_self pos),
            slice_nil_of_le (Nat.le_refl _)]
          simp
    · rw [if_neg hle]
      simp only [spliceAux]
      have h1 : List.drop pos text = [] := List.drop_eq_nil_of_le (by omega)
      rw [h1, List.flatMap_nil, List.append_nil, slice_eq,
        List.take_of_length_le]
      simp only [List.length_drop]
      omega

theorem replaceAllPat_lit (text : List Char) (c : Char)
    (f : List Char → List Char) :
    replaceAllPat text (.lit c) f =
      text.flatMap (fun ch => if ch == c then f [c] else [ch]) := by
  have h := @spliceAux_lit_flatMap text c f (text.length + 1) 0 0
    (by omega) (by omega)
  rw [replaceAllPat, findIter, h, slice_nil_of_le (Nat.le_refl 0),
    List.nil_append, List.drop_zero]

/-! Facts used to show that every extracted numbered-list match parses. -/

theorem digit_not_whitespace {c : Char} (h : isDigitC c = true) :
    rustWhitespace c = false := by
  by_contra hcon
  rw [Bool.not_eq_false] at hcon
  simp only [rustWhitespace, decide_eq_true_eq, List.mem_cons,
    List.not_mem_nil, or_false] at hcon
  have hd := h
  simp only [isDigitC, Bool.and_eq_true, decide_eq_true_eq] at hd
  rcases hcon with rfl | rfl | rfl | rfl | rfl | rfl | rfl | rfl | rfl |
    rfl | rfl | rfl | rfl | rfl | rfl | rfl | rfl | rfl | rfl | rfl | rfl |
    rfl | rfl | rfl | rfl
  all_goals exact absurd hd (by decide)

theorem onigSpace_rustWhitespace {c : Char} (h : onigSpace c = true) :
    rustWhitespace c = true := by
  simp only [onigSpace, Bool.or_eq_true, beq_iff_eq] at h
  rcases h with ((((rfl | rfl) | rfl) | rfl) | rfl) | rfl <;> decide

theorem trimStart_ws_digits {pre ds : List Char}
    (hpre : ∀ c ∈ pre, rustWhitespace c = true)
    (hne : ds ≠ []) (hd : ds.all isDigitC = true) :
    trimStart (pre ++ ds) = ds := by
  induction pre with
  | nil =>
    simp only [List.nil_append, trimStart]
    rcases ds with _ | ⟨d, ds2⟩
    · exact absurd rfl hne
    · have hdw : rustWhitespace d = false := digit_not_whitespace (by
        simp only [List.all_cons, Bool.and_eq_true] at hd
        exact hd.1)
      rw [List.dropWhile_cons, if_neg (by rw [hdw]; exact Bool.false_ne_true)]
  | cons x xs ih =>
    simp only [List.cons_append, trimStart, List.dropWhile_cons]
    rw [if_pos (hpre x (List.mem_cons_self _ _))]
    exact ih (fun c hc => hpre c (List.mem_cons_of_mem _ hc))

theorem digit_toNat_bounds {c : Char} (h : isDigitC c = true) :
    48 ≤ c.toNat ∧ c.toNat ≤ 57 := by
  simp only [isDigitC, Bool.and_eq_true, decide_eq_true_eq] at h
  obtain ⟨h1, h2⟩ := h
  exact ⟨h1, h2⟩

theorem digit_not_sign {c : Char} (h : isDigitC c = true) :
    (c == '+') = false ∧ (c == '-') = false := by
  obtain ⟨h1, h2⟩ := digit_toNat_bounds h
  constructor <;> (rw [beq_eq_false_iff_ne]; intro rfl2; subst rfl2) <;>
    simp at h1

theorem digitsVal_fold_bounds :
    ∀ (ds : List Char), ds.all isDigitC = true → ∀ acc : Int, 0 ≤ acc →
      0 ≤ ds.foldl (fun a c => a * 10 + (Int.ofNat (c.toNat - 48))) acc ∧
      ds.foldl (fun a c => a * 10 + (Int.ofNat (c.toNat - 48))) acc ≤
        (acc + 1) * 10 ^ ds.length - 1 := by
  intro ds
  induction ds with
  | nil =>
    intro _ acc hacc
    simp only [List.foldl_nil, List.length_nil, pow_zero, mul_one]
    omega
  | cons c cs ih =>
    intro hd acc hacc
    simp only [List.all_cons, Bool.and_eq_true] at hd
    obtain ⟨hc, hcs⟩ := hd
    obtain ⟨h1, h2⟩ := digit_toNat_bounds hc
    have hofnat : Int.ofNat (c.toNat - 48) = (c.toNat : Int) - 48 :=
      Int.ofNat_sub h1
    simp only [List.foldl_cons, List.length_cons]
    have hstep0 : (0 : Int) ≤ acc * 10 + (Int.ofNat (c.toNat - 48)) := by
      omega
    obtain ⟨ha, hb⟩ := ih hcs _ hstep0
    refine ⟨ha, ?_⟩
    have hpow : (0 : Int) < 10 ^ cs.length := by positivity
    have hmid : acc * 10 + (Int.ofNat (c.toNat - 48)) + 1 ≤ (acc + 1) * 10 := by
      omega
    have hmul : (acc * 10 + (Int.ofNat (c.toNat - 48)) + 1) * 10 ^ cs.length ≤
        ((acc + 1) * 10) * 10 ^ cs.length :=
      mul_le_mul_of_nonneg_right hmid (le_of_lt hpow)
    have hrw : ((acc + 1) * 10) * 10 ^ cs.length =
        (acc + 1) * 10 ^ (cs.length + 1) := by
      rw [pow_succ]
      ring
    omega

theorem digitsVal_bounds {ds : List Char} (hd : ds.all isDigitC = true) :
    0 ≤ digitsVal ds ∧ digitsVal ds ≤ 10 ^ ds.length - 1 := by
  have := digitsVal_fold_bounds ds hd 0 (le_refl 0)
  simpa [digitsVal] using this

theorem parseSign_of_digit {a : Char} {r : List Char}
    (hda : isDigitC a = true) : parseSign (a :: r) = (1, a :: r) := by
  obtain ⟨hs1, hs2⟩ := digit_not_sign hda
  simp [parseSign, hs1, hs2]

theorem parseI32_digits {ds : List Char} (hne : ds ≠ [])
    (hd : ds.all isDigitC = true) (hlen : ds.length ≤ 2) :
    ∃ v, parseI32 ds = .ok v := by
  rcases ds with _ | ⟨a, rest⟩
  · exact absurd rfl hne
  have hda : isDigitC a = true := by
    simp only [List.all_cons, Bool.and_eq_true] at hd
    exact hd.1
  obtain ⟨hv0, hv1⟩ := digitsVal_bounds hd
  have hpowle : (10 : Int) ^ (a :: rest).length ≤ 10 ^ 2 :=
    pow_le_pow_right₀ (by norm_num) hlen
  refine ⟨1 * digitsVal (a :: rest), ?_⟩
  rw [parseI32]
  simp only [parseSign_of_digit hda]
  rw [if_neg (by simp [hd]), if_pos]
  simp only [Bool.and_eq_true, decide_eq_true_eq]
  constructor <;> omega

theorem collectExcept_ok {l : List (Except Unit Int)}
    (h : ∀ x ∈ l, ∃ v, x = .ok v) : ∃ vs, collectExcept l = .ok vs := by
  induction l with
  | nil => exact ⟨[], rfl⟩
  | cons x xs ih =>
    obtain ⟨v, rfl⟩ := h x (List.mem_cons_self _ _)
    obtain ⟨vs, hvs⟩ := ih (fun y hy => h y (List.mem_cons_of_mem _ hy))
    exact ⟨v :: vs, by simp [collectExcept, hvs, Except.map]⟩

/-- The shape of every match of the two numbered-list extraction regexes:
optional whitespace followed by one or two digits. -/
theorem mem_mrun_numbered1 {text : List Char} {pos e : Nat}
    (h : e ∈ mrun text numberedListRegex1 pos) :
    ∃ pre ds, slice text pos e = pre ++ ds ∧
      (∀ c ∈ pre, rustWhitespace c = true) ∧
      ds ≠ [] ∧ ds.all isDigitC = true ∧ ds.length ≤ 2 := by
  have hdig : ∀ {m : Nat} {q : Pat}, e ∈ mrun text (.seq d12 (.la q)) m →
      (slice text m e).all isDigitC = true ∧ slice text m e ≠ [] ∧
      (slice text m e).length ≤ 2 := by
    intro m q hm
    obtain ⟨e1, hd, hla⟩ := mem_mrun_seq hm
    obtain rfl := mem_mrun_la hla
    exact mem_mrun_d12 hd
  have hwsb : ∀ {q : Pat},
      e ∈ mrun text (.seq (.cls onigSpace) (.seq d12 (.la q))) pos →
      ∃ pre ds, slice text pos e = pre ++ ds ∧
        (∀ c ∈ pre, rustWhitespace c = true) ∧
        ds ≠ [] ∧ ds.all isDigitC = true ∧ ds.length ≤ 2 := by
    intro q hm
    obtain ⟨m, hcls, hrest⟩ := mem_mrun_seq hm
    obtain ⟨w, hw, hwf, rfl⟩ := mem_mrun_cls hcls
    obtain ⟨hall, hne, hlen⟩ := hdig hrest
    have hpe : pos < e := by
      have := @mrun_ge text _ _ _ hrest
      omega
    refine ⟨[w], slice text (pos + 1) e, ?_, ?_, hne, hall, hlen⟩
    · rw [slice_cons hw hpe]
      rfl
    · intro x hx
      rw [List.mem_singleton] at hx
      subst hx
      exact onigSpace_rustWhitespace hwf
  have hzwb : ∀ {m : Nat} {q : Pat},
      e ∈ mrun text (.seq d12 (.la q)) m → m = pos →
      ∃ pre ds, slice text pos e = pre ++ ds ∧
        (∀ c ∈ pre, rustWhitespace c = true) ∧
        ds ≠ [] ∧ ds.all isDigitC = true ∧ ds.length ≤ 2 := by
    intro m q hm hmp
    rw [hmp] at hm
    obtain ⟨hall, hne, hlen⟩ := hdig hm
    exact ⟨[], _, (List.nil_append _).symm, by simp, hne, hall, hlen⟩
  simp only [numberedListRegex1, altList] at h
  rcases mem_mrun_alt h with h1 | h
  · exact hwsb h1
  rcases mem_mrun_alt h with h2 | h
  · obtain ⟨m, hzw, hm⟩ := mem_mrun_seq h2
    exact hzwb hm (mem_mrun_bol hzw)
  rcases mem_mrun_alt h with h3 | h
  · exact hwsb h3
  rcases mem_mrun_alt h with h4 | h
  · obtain ⟨m, hzw, hm⟩ := mem_mrun_seq h4
    exact hzwb hm (mem_mrun_bol hzw)
  rcases mem_mrun_alt h with h5 | h
  · obtain ⟨m, hzw, hm⟩ := mem_mrun_seq h5
    exact hzwb hm (mem_mrun_lb hzw)
  rcases mem_mrun_alt h with h6 | h
  · obtain ⟨m, hzw, hm⟩ := mem_mrun_seq h6
    exact hzwb hm (mem_mrun_lb hzw)
  rcases mem_mrun_alt h with h7 | h
  · obtain ⟨m, hzw, hm⟩ := mem_mrun_seq h7
    exact hzwb hm (mem_mrun_lb hzw)
  rcases mem_mrun_alt h with h8 | h
  · obtain ⟨m, hzw, hm⟩ := mem_mrun_seq h8
    exact hzwb hm (mem_mrun_lb hzw)
  rcases mem_mrun_alt h with h9 | h
  · obtain ⟨m, hzw, hm⟩ := mem_mrun_seq h9
    exact hzwb hm (mem_mrun_lb hzw)
  rcases mem_mrun_alt h with h10 | h
  · obtain ⟨m, hzw, hm⟩ := mem_mrun_seq h10
    exact hzwb hm (mem_mrun_lb hzw)
  rcases mem_mrun_alt h with h11 | h12
  · obtain ⟨m, hzw, hm⟩ := mem_mrun_seq h11
    exact hzwb hm (mem_mrun_lb hzw)
  · obtain ⟨m, hzw, hm⟩ := mem_mrun_seq h12
    exact hzwb hm (mem_mrun_lb hzw)

theorem mem_mrun_numberedParens {text : List Char} {pos e : Nat}
    (h : e ∈ mrun text numberedListParensRegex pos) :
    ∃ pre ds, slice text pos e = pre ++ ds ∧
      (∀ c ∈ pre, rustWhitespace c = true) ∧
      ds ≠ [] ∧ ds.all isDigitC = true ∧ ds.length ≤ 2 := by
  simp only [numberedListParensRegex] at h
  obtain ⟨e1, hd, hla⟩ := mem_mrun_seq h
  obtain rfl := mem_mrun_la hla
  obtain ⟨hall, hne, hlen⟩ := mem_mrun_d12 hd
  exact ⟨[], slice text pos e, by simp, by simp, hne, hall, hlen⟩

theorem scanLists_ok (text : List Char) {regex1 : Pat} (regex2 : Pat)
    (replacement : Char) (strip : Bool)
    (hshape : ∀ {pos e : Nat}, e ∈ mrun text regex1 pos →
      ∃ pre ds, slice text pos e = pre ++ ds ∧
        (∀ c ∈ pre, rustWhitespace c = true) ∧
        ds ≠ [] ∧ ds.all isDigitC = true ∧ ds.length ≤ 2) :
    ∃ out, scanLists text regex1 regex2 replacement strip = .ok out := by
  have hcoll : ∀ x ∈ (findIter text regex1).map
      (fun r => parseI32 (trimStart (slice text r.1 r.2))),
      ∃ v, x = Except.ok v := by
    intro x hx
    rw [List.mem_map] at hx
    obtain ⟨r, hr, rfl⟩ := hx
    obtain ⟨pre, ds, hslice, hpre, hne, hall, hlen⟩ :=
      hshape (mem_findIterAux hr)
    rw [hslice, trimStart_ws_digits hpre hne hall]
    obtain ⟨v, hv⟩ := parseI32_digits hne hall hlen
    exact ⟨v, hv⟩
  obtain ⟨vs, hvs⟩ := collectExcept_ok hcoll
  have hfin : scanLists text regex1 regex2 replacement strip =
      Except.ok (vs.enum.foldl (fun result p =>
        if keepEntry vs p.1 p.2 then
          subPass regex2 strip replacement p.2 result
        else result) text) := by
    rw [scanLists, hvs]
    rfl
  exact ⟨_, hfin⟩

theorem scanLists_periods_ok (t : List Char) :
    ∃ out, scanLists t numberedListRegex1 numberedListRegex2 '♨' true =
      .ok out :=
  scanLists_ok t numberedListRegex2 '♨' true
    (fun h => mem_mrun_numbered1 h)

theorem scanLists_parens_ok (t : List Char) :
    ∃ out, scanLists t numberedListParensRegex numberedListParensRegex '☝'
      false = .ok out :=
  scanLists_ok t numberedListParensRegex '☝' false
    (fun h => mem_mrun_numberedParens h)

/-! Facts about the line splitter. -/

theorem slice_drop_eq (s : List Char) (a b k : Nat) :
    (slice s a b).drop k = slice s (a + k) b := by
  rw [slice_eq, slice_eq, List.drop_take, List.drop_drop]
  congr 1
  omega

theorem slice_take_eq (s : List Char) {a b k : Nat} (hk : k ≤ b - a) :
    (slice s a b).take k = slice s a (a + k) := by
  rw [slice_eq, slice_eq, List.take_take]
  congr 1
  omega

theorem slice_length_of_le (s : List Char) {a b : Nat} (hb : b ≤ s.length) :
    (slice s a b).length = b - a := by
  rw [slice_eq]
  simp only [List.length_take, List.length_drop]
  omega

theorem lineTerminators_ne_nil : ∀ t ∈ lineTerminators, t ≠ [] := by decide

theorem lineTerminators_cr_unique :
    ∀ t ∈ lineTerminators, t.getLast? = some '\r' → t = ['\r'] := by decide

theorem termFind_mem {s : List Char} {pos : Nat} {t : List Char}
    (h : termFind s pos = some t) :
    t ∈ lineTerminators ∧ (s.drop pos).take t.length = t :=
  ⟨List.mem_of_find?_eq_some h, by simpa using List.find?_some h⟩

theorem termFind_bound {s : List Char} {pos : Nat} {t : List Char}
    (h : termFind s pos = some t) :
    pos + t.length ≤ s.length ∧ 1 ≤ t.length := by
  obtain ⟨hmem, heq⟩ := termFind_mem h
  have hne := lineTerminators_ne_nil t hmem
  have hlen := congrArg List.length heq
  simp only [List.length_take, List.length_drop] at hlen
  have h1 : 1 ≤ t.length := by
    rcases t with _ | _
    · exact absurd rfl hne
    · simp
  omega

theorem termFind_none_iff {s : List Char} {pos : Nat} :
    termFind s pos = none ↔ termAtB s pos = false := by
  rw [termFind, termAtB, List.find?_eq_none, List.any_eq_false]

theorem termAt_of_take {s : List Char} {pos : Nat} {t : List Char}
    (hmem : t ∈ lineTerminators) (heq : (s.drop pos).take t.length = t) :
    termAtB s pos = true := by
  rw [termAtB, List.any_eq_true]
  exact ⟨t, hmem, by simp [heq]⟩

theorem termFind_cr {s : List Char} {pos : Nat}
    (h : termFind s pos = some ['\r']) :
    s.get? pos = some '\r' ∧ s.get? (pos + 1) ≠ some '\n' := by
  have hcr : (s.drop pos).take 1 = ['\r'] := by
    simpa using List.find?_some h
  have hcrlf : ¬((s.drop pos).take 2 = ['\r', '\n']) := by
    intro hcon
    have hfind : termFind s pos = some ['\r', '\n'] := by
      rw [termFind, lineTerminators]
      apply List.find?_cons_of_pos
      simp [hcon]
    rw [hfind] at h
    simp at h
  rcases hd : s.drop pos with _ | ⟨x, rest⟩
  · rw [hd] at hcr
    simp at hcr
  · have hx : x = '\r' := by
      rw [hd] at hcr
      simpa using hcr
    subst hx
    have hrest : rest = s.drop (pos + 1) := by
      have := List.drop_drop 1 pos s
      rw [hd] at this
      simpa using this
    constructor
    · rw [List.get?_eq_getElem?, ← List.head?_drop, hd]
      rfl
    · intro hcon
      apply hcrlf
      rw [hd]
      have : rest.head? = some '\n' := by
        rw [hrest, List.head?_drop, ← List.get?_eq_getElem?]
        exact hcon
      rcases rest with _ | ⟨y, rest2⟩
      · simp at this
      · simp only [List.head?_cons, Option.some.injEq] at this
        subst this
        rfl

theorem findTermFrom_some {s : List Char} :
    ∀ {fuel start pos : Nat} {t : List Char},
      findTermFrom s fuel start = some (pos, t) →
      start ≤ pos ∧ pos < s.length ∧ termFind s pos = some t ∧
        ∀ r, start ≤ r → r < pos → termFind s r = none := by
  intro fuel
  induction fuel with
  | zero =>
    intro start pos t h
    simp [findTermFrom] at h
  | succ n ih =>
    intro start pos t h
    simp only [findTermFrom] at h
    split at h
    · next hlt =>
      rcases hf : termFind s start with _ | t0
      · rw [hf] at h
        obtain ⟨h1, h2, h3, h4⟩ := ih h
        refine ⟨by omega, h2, h3, ?_⟩
        intro r hr1 hr2
        rcases Nat.eq_or_lt_of_le hr1 with rfl | hgt
        · exact hf
        · exact h4 r hgt hr2
      · rw [hf] at h
        simp only [Option.some.injEq, Prod.mk.injEq] at h
        obtain ⟨rfl, rfl⟩ := h
        exact ⟨Nat.le_refl _, hlt, hf, fun r hr1 hr2 => by omega⟩
    · simp at h

theorem findTermFrom_none {s : List Char} :
    ∀ {fuel start : Nat}, s.length ≤ start + fuel →
      findTermFrom s fuel start = none →
      ∀ r, start ≤ r → r < s.length → termFind s r = none := by
  intro fuel
  induction fuel with
  | zero =>
    intro start hfl _ r hr1 hr2
    omega
  | succ n ih =>
    intro start hfl h r hr1 hr2
    simp only [findTermFrom] at h
    split at h
    · next hlt =>
      rcases hf : termFind s start with _ | t0
      · rw [hf] at h
        rcases Nat.eq_or_lt_of_le hr1 with rfl | hgt
        · exact hf
        · exact ih (by omega) h r hgt hr2
      · rw [hf] at h
        simp at h
    · next hlt =>
      omega

theorem termFreeB_slice {s : List Char} {a b : Nat} (hab : a ≤ b)
    (hb : b ≤ s.length)
    (hfree : ∀ r, a ≤ r → r < b → termFind s r = none) :
    termFreeB (slice s a b) = true := by
  rw [termFreeB, List.all_eq_true]
  intro q hq
  rw [List.mem_range, slice_length_of_le s hb] at hq
  rw [Bool.not_eq_true']
  rw [termAtB, List.any_eq_false]
  intro t ht
  rw [Bool.not_eq_true]
  rw [beq_eq_false_iff_ne]
  intro heq
  have htlen : t.length ≤ b - (a + q) := by
    have hlen := congrArg List.length heq
    rw [List.length_take, List.length_drop,
      slice_length_of_le s hb] at hlen
    omega
  rw [slice_drop_eq] at heq
  rw [slice_eq, List.take_take, Nat.min_eq_left (by omega)] at heq
  have hterm : termAtB s (a + q) = true := termAt_of_take ht heq
  have := (termFind_none_iff).mp (hfree (a + q) (by omega) (by omega))
  rw [this] at hterm
  exact absurd hterm (by simp)

theorem line_decompose {s : List Char} {last pos : Nat} {t : List Char}
    (hlp : last ≤ pos) (hfind : termFind s pos = some t) :
    slice s last (pos + t.length) = slice s last pos ++ t := by
  obtain ⟨hmem, heq⟩ := termFind_mem hfind
  rw [slice_append_mid s hlp (by omega)]
  congr 1
  rw [slice_eq]
  have : pos + t.length - pos = t.length := by omega
  rw [this, heq]

theorem lineShapeB_of_term {s : List Char} {last pos : Nat} {t : List Char}
    (hlp : last ≤ pos) (hfind : termFind s pos = some t)
    (hfree : ∀ r, last ≤ r → r < pos → termFind s r = none) :
    lineShapeB (slice s last (pos + t.length)) = true := by
  obtain ⟨hmem, heq⟩ := termFind_mem hfind
  obtain ⟨hbound, htpos⟩ := termFind_bound hfind
  rw [lineShapeB, Bool.or_eq_true]
  right
  rw [List.any_eq_true]
  refine ⟨t, hmem, ?_⟩
  have hlen : (slice s last (pos + t.length)).length = pos + t.length - last :=
    slice_length_of_le s (by omega)
  have hsub : pos + t.length - last - t.length = pos - last := by omega
  rw [hlen, hsub]
  simp only [Bool.and_eq_true, decide_eq_true_eq]
  refine ⟨⟨by omega, ?_⟩, ?_⟩
  · rw [slice_drop_eq]
    have hpl : last + (pos - last) = pos := by omega
    rw [hpl, slice_eq]
    have : pos + t.length - pos = t.length := by omega
    rw [this, heq]
    exact beq_self_eq_true t
  · rw [slice_take_eq s (by omega)]
    have hpl : last + (pos - last) = pos := by omega
    rw [hpl]
    exact termFreeB_slice hlp (by omega) hfree

theorem lineShapeB_of_free {s : List Char} {a b : Nat} (hab : a ≤ b)
    (hb : b ≤ s.length)
    (hfree : ∀ r, a ≤ r → r < b → termFind s r = none) :
    lineShapeB (slice s a b) = true := by
  rw [lineShapeB, Bool.or_eq_true]
  left
  exact termFreeB_slice hab hb hfree

theorem splitlinesAux_succ_some {s : List Char} {n last pos : Nat}
    {t : List Char}
    (hf : findTermFrom s (s.length + 1) last = some (pos, t)) :
    splitlinesAux s (n + 1) last =
      slice s last (pos + t.length) :: splitlinesAux s n (pos + t.length) := by
  simp only [splitlinesAux, hf]

theorem splitlinesAux_succ_none {s : List Char} {n last : Nat}
    (hf : findTermFrom s (s.length + 1) last = none) :
    splitlinesAux s (n + 1) last =
      if last < s.length then [slice s last s.length] else [] := by
  simp only [splitlinesAux, hf]

theorem splitlinesAux_flatten {s : List Char} :
    ∀ {fuel last : Nat},
      (splitlinesAux s fuel last).flatten = slice s last s.length := by
  intro fuel
  induction fuel with
  | zero =>
    intro last
    simp only [splitlinesAux]
    split
    · simp
    · next h =>
      rw [slice_nil_of_le (by omega)]
      rfl
  | succ n ih =>
    intro last
    rcases hf : findTermFrom s (s.length + 1) last with _ | ⟨pos, t⟩
    · rw [splitlinesAux_succ_none hf]
      split
      · simp
      · next h =>
        rw [slice_nil_of_le (by omega)]
        rfl
    · obtain ⟨h1, h2, h3, h4⟩ := findTermFrom_some hf
      obtain ⟨hb, ht1⟩ := termFind_bound h3
      rw [splitlinesAux_succ_some hf, List.flatten_cons, ih]
      exact (slice_append_mid s (by omega) (by omega)).symm

theorem splitlinesAux_ne_nil {s : List Char} :
    ∀ {fuel last : Nat} {l : List Char}, l ∈ splitlinesAux s fuel last →
      l ≠ [] := by
  intro fuel
  induction fuel with
  | zero =>
    intro last l hl
    simp only [splitlinesAux] at hl
    split at hl
    · next h =>
      rw [List.mem_singleton] at hl
      subst hl
      exact slice_ne_nil h h
    · simp at hl
  | succ n ih =>
    intro last l hl
    rcases hf : findTermFrom s (s.length + 1) last with _ | ⟨pos, t⟩
    · rw [splitlinesAux_succ_none hf] at hl
      split at hl
      · next h =>
        rw [List.mem_singleton] at hl
        subst hl
        exact slice_ne_nil h h
      · simp at hl
    · obtain ⟨h1, h2, h3, h4⟩ := findTermFrom_some hf
      obtain ⟨hb, ht1⟩ := termFind_bound h3
      rw [splitlinesAux_succ_some hf] at hl
      rcases List.mem_cons.mp hl with rfl | hl2
      · exact slice_ne_nil (by omega) (by omega)
      · exact ih hl2

theorem splitlinesAux_head {s : List Char} {fuel last : Nat} {l : List Char}
    {rest : List (List Char)}
    (h : splitlinesAux s fuel last = l :: rest) :
    l.head? = s.get? last ∧ last < s.length := by
  rcases fuel with _ | n
  · simp only [splitlinesAux] at h
    split at h
    · next hlt =>
      simp only [List.cons.injEq] at h
      obtain ⟨rfl, _⟩ := h
      exact ⟨slice_head? hlt hlt, hlt⟩
    · simp at h
  · rcases hf : findTermFrom s (s.length + 1) last with _ | ⟨pos, t⟩
    · rw [splitlinesAux_succ_none hf] at h
      split at h
      · next hlt =>
        simp only [List.cons.injEq] at h
        obtain ⟨rfl, _⟩ := h
        exact ⟨slice_head? hlt hlt, hlt⟩
      · simp at h
    · obtain ⟨h1, h2, h3, h4⟩ := findTermFrom_some hf
      obtain ⟨hb, ht1⟩ := termFind_bound h3
      rw [splitlinesAux_succ_some hf] at h
      simp only [List.cons.injEq] at h
      obtain ⟨rfl, _⟩ := h
      exact ⟨slice_head? (by omega) (by omega), by omega⟩

theorem splitlinesAux_shape {s : List Char} :
    ∀ {fuel last : Nat}, s.length + 1 - last ≤ fuel →
      ∀ l ∈ splitlinesAux s fuel last, lineShapeB l = true := by
  intro fuel
  induction fuel with
  | zero =>
    intro last hfl l hl
    simp only [splitlinesAux] at hl
    rw [if_neg (by omega)] at hl
    simp at hl
  | succ n ih =>
    intro last hfl l hl
    rcases hf : findTermFrom s (s.length + 1) last with _ | ⟨pos, t⟩
    · rw [splitlinesAux_succ_none hf] at hl
      split at hl
      · next hlt =>
        rw [List.mem_singleton] at hl
        subst hl
        exact lineShapeB_of_free (by omega) (by omega)
          (findTermFrom_none (by omega) hf)
      · simp at hl
    · obtain ⟨h1, h2, h3, h4⟩ := findTermFrom_some hf
      obtain ⟨hb, ht1⟩ := termFind_bound h3
      rw [splitlinesAux_succ_some hf] at hl
      rcases List.mem_cons.mp hl with rfl | hl2
      · exact lineShapeB_of_term h1 h3 h4
      · exact ih (by omega) l hl2

theorem splitlinesAux_crlf {s : List Char} :
    ∀ {fuel last : Nat}, s.length + 1 - last ≤ fuel →
      crlfJoinedB (splitlinesAux s fuel last) = true := by
  intro fuel
  induction fuel with
  | zero =>
    intro last hfl
    simp only [splitlinesAux]
    rw [if_neg (by omega)]
    rfl
  | succ n ih =>
    intro last hfl
    rcases hf : findTermFrom s (s.length + 1) last with _ | ⟨pos, t⟩
    · rw [splitlinesAux_succ_none hf]
      split
      · rfl
      · rfl
    · obtain ⟨h1, h2, h3, h4⟩ := findTermFrom_some hf
      obtain ⟨hb, ht1⟩ := termFind_bound h3
      have hne := lineTerminators_ne_nil t (termFind_mem h3).1
      rw [splitlinesAux_succ_some hf]
      rcases hrest : splitlinesAux s n (pos + t.length) with _ | ⟨b, rest2⟩
      · rfl
      · simp only [crlfJoinedB, Bool.and_eq_true]
        constructor
        · rw [Bool.not_eq_true']
          obtain ⟨hbh, hblt⟩ := splitlinesAux_head hrest
          by_cases hlast :
              (slice s last (pos + t.length)).getLast? = some '\r'
          · have hline : slice s last (pos + t.length) =
                slice s last pos ++ t := line_decompose h1 h3
            have htlast : t.getLast? = some '\r' := by
              rw [hline,
                List.getLast?_append_of_ne_nil (slice s last pos) hne] at hlast
              exact hlast
            have ht_eq : t = ['\r'] :=
              lineTerminators_cr_unique t (termFind_mem h3).1 htlast
            subst ht_eq
            obtain ⟨hcr1, hcr2⟩ := termFind_cr h3
            rw [Bool.and_eq_false_iff]
            right
            rw [beq_eq_false_iff_ne, hbh]
            exact hcr2
          · rw [Bool.and_eq_false_iff]
            left
            rw [beq_eq_false_iff_ne]
            exact hlast
        · have hrec := ih (show s.length + 1 - (pos + t.length) ≤ n by omega)
          rw [hrest] at hrec
          exact hrec

/-! Shape lemmas for the alphabetical-list matchers. -/

theorem mem_letterDot {text : List Char} {m e : Nat}
    (h : e ∈ mrun text (.seq (.cls letterI) (.lit '.')) m) :
    ∃ c, letterI c = true ∧ text.get? m = some c ∧
      text.get? (m + 1) = some '.' ∧ e = m + 2 := by
  obtain ⟨m2, hcls, hlit⟩ := mem_mrun_seq h
  obtain ⟨c, hc, hf, rfl⟩ := mem_mrun_cls hcls
  obtain ⟨hdot, rfl⟩ := mem_mrun_lit hlit
  exact ⟨c, hf, hc, hdot, rfl⟩

theorem mem_mrun_lettersPeriods {text : List Char} {pos e : Nat}
    (h : e ∈ mrun text alphabeticalListLettersAndPeriodsRegex pos) :
    ∃ c, letterI c = true ∧ slice text pos e = [c, '.'] := by
  have assemble : ∀ {m : Nat},
      e ∈ mrun text (.seq (.cls letterI) (.lit '.')) m → m = pos →
      ∃ c, letterI c = true ∧ slice text pos e = [c, '.'] := by
    intro m hm hmp
    subst hmp
    obtain ⟨c, hf, hc, hdot, rfl⟩ := mem_letterDot hm
    refine ⟨c, hf, ?_⟩
    rw [slice_cons hc (by omega), slice_cons hdot (by omega),
      slice_nil_of_le (Nat.le_refl _)]
  simp only [alphabeticalListLettersAndPeriodsRegex, altList] at h
  rcases mem_mrun_alt h with h1 | h'
  · obtain ⟨m, hzw, hm⟩ := mem_mrun_seq h1
    exact assemble hm (mem_mrun_bol hzw)
  · rcases mem_mrun_alt h' with h2 | h3
    · obtain ⟨m, hzw, hm⟩ := mem_mrun_seq h2
      exact assemble hm (mem_mrun_bos hzw)
    · obtain ⟨m, hzw, hm⟩ := mem_mrun_seq h3
      exact assemble hm (mem_mrun_lb hzw)

theorem mem_plus_letters_la {text : List Char} {m e : Nat} {close : Pat}
    (h : e ∈ mrun text (.seq (.plus (.cls letterI)) (.la close)) m) :
    m < e ∧ (slice text m e).all letterI = true ∧ slice text m e ≠ [] := by
  obtain ⟨e1, hplus, hla⟩ := mem_mrun_seq h
  obtain rfl := mem_mrun_la hla
  obtain ⟨hlt, hall⟩ := mem_plus_cls hplus
  refine ⟨hlt, hall, ?_⟩
  simp only [mrun, List.mem_flatMap] at hplus
  obtain ⟨x, hx, _⟩ := hplus
  obtain ⟨ch, hch, _, _⟩ := mem_mrun_cls hx
  rw [slice_cons hch hlt]
  exact List.cons_ne_nil _ _

theorem mem_mrun_extractLetters {text : List Char} {pos e : Nat}
    (h : e ∈ mrun text extractAlphabeticalListLettersRegex pos) :
    (∃ ls, slice text pos e = '(' :: ls ∧ ls ≠ [] ∧ ls.all letterI = true) ∨
    (slice text pos e ≠ [] ∧ (slice text pos e).all letterI = true) := by
  have assemble : ∀ {m : Nat},
      e ∈ mrun text (.seq (.plus (.cls letterI)) (.la (.lit ')'))) m →
      m = pos →
      slice text pos e ≠ [] ∧ (slice text pos e).all letterI = true := by
    intro m hm hmp
    subst hmp
    obtain ⟨_, hall, hne⟩ := mem_plus_letters_la hm
    exact ⟨hne, hall⟩
  simp only [extractAlphabeticalListLettersRegex, altList] at h
  rcases mem_mrun_alt h with h1 | h'
  · left
    obtain ⟨m, hlit, hm⟩ := mem_mrun_seq h1
    obtain ⟨hparen, rfl⟩ := mem_mrun_lit hlit
    obtain ⟨hlt, hall, hne⟩ := mem_plus_letters_la hm
    refine ⟨slice text (pos + 1) e, ?_, hne, hall⟩
    rw [slice_cons hparen (by omega)]
  · right
    rcases mem_mrun_alt h' with h2 | h''
    · obtain ⟨m, hzw, hm⟩ := mem_mrun_seq h2
      exact assemble hm (mem_mrun_bol hzw)
    · rcases mem_mrun_alt h'' with h3 | h4
      · obtain ⟨m, hzw, hm⟩ := mem_mrun_seq h3
        exact assemble hm (mem_mrun_bos hzw)
      · obtain ⟨m, hzw, hm⟩ := mem_mrun_seq h4
        exact assemble hm (mem_mrun_lb hzw)

theorem letterI_ne_paren {c : Char} (h : letterI c = true) : c ≠ '(' := by
  intro heq
  rw [heq] at h
  exact absurd h (by decide)

theorem replaceAlphabetList_eq_claim_aux (text target : List Char) :
    replaceAlphabetList text target =
      replaceAllPat text alphabeticalListLettersAndPeriodsRegex
        (claimPeriodRewrite target) := by
  apply replaceAllPat_congr
  intro r hr
  obtain ⟨c, hc, hsl⟩ := mem_mrun_lettersPeriods (mem_findIterAux hr)
  rw [hsl]
  have hstrip : stripSuffixDot [c, '.'] = [c] := by
    simp [stripSuffixDot]
  simp only [hstrip, claimPeriodRewrite]
  by_cases ht : [c] = target
  · subst ht
    simp
  · rw [if_neg (by simpa using ht), if_neg ?_]
    intro hcon
    have hcon' : [c] ++ ['.'] = target ++ ['.'] := by
      simpa using hcon
    exact ht (List.append_cancel_right hcon')

theorem parenClosure_eq_claim {target mat : List Char}
    (htarget : target.all lowerAZ = true)
    (hshape : (∃ ls, mat = '(' :: ls ∧ ls ≠ [] ∧ ls.all letterI = true) ∨
      (mat ≠ [] ∧ mat.all letterI = true)) :
    (match stripParenPre mat with
     | some matWoParen =>
       if matWoParen == target then '\r' :: ('&' :: '✂' :: '&' :: matWoParen)
       else mat
     | none => if mat == target then '\r' :: mat else mat) =
      claimParenRewrite target mat := by
  rcases hshape with ⟨ls, rfl, hne, hall⟩ | ⟨hne, hall⟩
  · have hstrip : stripParenPre ('(' :: ls) = some ls := by
      simp [stripParenPre]
    simp only [hstrip, claimParenRewrite]
    by_cases ht : ls = target
    · subst ht
      simp
    · have h1 : ¬(ls == target) = true := by simpa using ht
      have h2 : ¬('(' :: ls == '(' :: target) = true := by simpa using ht
      have h3 : ¬('(' :: ls == target) = true := by
        intro hcon
        have hmem : '(' ∈ target := by
          rw [← eq_of_beq hcon]
          exact List.mem_cons_self _ _
        have := (List.all_eq_true.mp htarget) _ hmem
        simp [lowerAZ] at this
      rw [if_neg h1, if_neg h2, if_neg h3]
  · rcases mat with _ | ⟨ch, rest⟩
    · exact absurd rfl hne
    · have hch : letterI ch = true := by
        simp only [List.all_cons, Bool.and_eq_true] at hall
        exact hall.1
      have hchp : ch ≠ '(' := letterI_ne_paren hch
      have hstrip : stripParenPre (ch :: rest) = none := by
        simp [stripParenPre, hchp]
      simp only [hstrip, claimParenRewrite]
      have h2 : ¬(ch :: rest == '(' :: target) = true := by
        intro hcon
        exact hchp (List.cons_eq_cons.mp (eq_of_beq hcon)).1
      rw [if_neg h2]
      by_cases ht : ch :: rest = target
      · rw [← ht]
      · rw [if_neg (by simpa using ht), if_neg (by simpa using ht)]

theorem replaceAlphabetListParens_eq_claim_aux (text target : List Char)
    (htarget : target.all lowerAZ = true) :
    replaceAlphabetListParens text target =
      replaceAllPat text extractAlphabeticalListLettersRegex
        (claimParenRewrite target) := by
  apply replaceAllPat_congr
  intro r hr
  exact parenClosure_eq_claim htarget
    (mem_mrun_extractLetters (mem_findIterAux hr))

/-- C1 (counterexample): at rank array `[0, 1, 2]` and index 0 the code
keeps (rewrites) the marker — `rank[1] - rank[0] = 1` makes `is_strange`
false — while the spec's stated condition
(`rank[1] - rank[0] != 1` and `|rank[n-1] - rank[0]| != 1`) rejects it, so
the claimed keep-condition is not the one the code implements. -/
theorem iterate_alphabet_keep_inverted_at_index_zero :
    (!isStrange [0, 1, 2] 0) = true ∧ claimKeepAlphabet [0, 1, 2] 0 = false := by
  decide

/-- C1 (amended): in every alphabetical/roman list pass the marker at index
`ind` is rewritten iff the negation of `is_strange` holds, which for the
last index is the spec's condition, but for index 0 and the middle indices
is the negation of the spec's condition: keep iff the next rank is exactly
one above, OR the other compared rank differs by one in absolute value. -/
theorem iterate_alphabet_keep_eq_amended (ranks : List Int) (ind : Nat) :
    (!isStrange ranks ind) = amendedKeepAlphabet ranks ind := by
  simp only [isStrange, amendedKeepAlphabet]
  by_cases h1 : ranks.length ≤ 1
  · simp [h1]
  · by_cases h2 : ind == ranks.length - 1
    · simp [h1, h2, bne]
    · by_cases h3 : ind == 0 <;>
        simp [h1, h2, h3, Bool.not_and, bne, Bool.not_or]

/-- C6: the per-match decision of the abbreviation scan is exactly the
claim's: skip iff the next-word text is all-cased-uppercase and the
abbreviation is not prepositive; otherwise apply the prepositive pattern
for prepositive abbreviations, else the number pattern for number
abbreviations, else the general pattern. -/
theorem scan_decision_eq_claim (ch : List Char) (abbr : String) :
    scanForReplacements ch abbr = claimScanForReplacements ch abbr := by
  simp only [scanForReplacements, claimScanForReplacements]
  cases hu : pythonIsupper ch <;>
    cases hp : PREPOSITIVE_ABBREVIATIONS.contains abbr <;> simp

/-- C7 (failing input): `python_isupper` diverges from the claimed Python
`str.isupper` semantics on the titlecase letter `ǅ` (U+01C5), which is
Cased but not uppercase: the code returns `true` on `"ǅA"` because its loop
ignores cased characters that are neither uppercase nor lowercase, while
the claim's predicate (all cased characters uppercase, at least one cased)
is `false` there. -/
theorem python_isupper_titlecase_divergence :
    pythonIsupper ['ǅ', 'A'] = true ∧
      claimIsAllCasedUppercase ['ǅ', 'A'] = false := by
  decide

/-- C10: for the first extracted number (loop index 0) the wrapped `usize`
subtraction `0 - 1` indexes `2^64 - 1`, which is out of bounds for any
realizable list, so the previous-neighbor disjuncts of the keep condition
are false and only the following-entry tests remain. -/
theorem scan_lists_first_entry_no_previous (l : List Int) (each : Int)
    (h : l.length < 2 ^ 64) :
    keepEntry l 0 each =
      ((l.get? 1 == some (each + 1)) ||
       (each == 9 && l.get? 1 == some 0)) := by
  have hs : usizeSub 0 1 = 2 ^ 64 - 1 := by
    simp only [usizeSub]
    norm_num
  have hget : l[usizeSub 0 1]? = none := by
    rw [hs]
    exact List.getElem?_eq_none (by omega)
  simp [keepEntry, hget]

/-- C10 (witness): the first-entry evaluation at the concrete list
`[1, 5]`. -/
theorem scan_lists_first_entry_no_previous_witness :
    ([1, 5] : List Int).length < 2 ^ 64 ∧
      keepEntry [1, 5] 0 1 =
        ((([1, 5] : List Int).get? 1 == some (1 + 1)) ||
         ((1 : Int) == 9 && ([1, 5] : List Int).get? 1 == some 0)) :=
  ⟨by norm_num, scan_lists_first_entry_no_previous [1, 5] 1 (by norm_num)⟩

/-- C3 (counterexample): on `"1. a 2. b 7. c 1. d"` the extracted sequence
is `[1, 2, 7, 1]`; its last entry (value 1, preceded by 7, with no
following entry) is adjacent to no neighbor and satisfies no 9-to-0 wrap,
yet `scan_lists` rewrites its period to `♨` too, because the substitution
pass for a kept entry rewrites every match with the same numeric value, not
only the kept occurrence. -/
theorem scan_lists_rewrites_duplicate_value :
    collectExcept ((findIter "1. a 2. b 7. c 1. d".data numberedListRegex1).map
        (fun r => parseI32 (trimStart (slice "1. a 2. b 7. c 1. d".data r.1 r.2)))) =
      .ok [1, 2, 7, 1] ∧
    claimAdjacentEntry [1, 2, 7, 1] 3 = false ∧
    scanLists "1. a 2. b 7. c 1. d".data numberedListRegex1
        numberedListRegex2 '♨' true =
      .ok "1♨ a 2♨ b 7. c 1♨ d".data :=
  ⟨by rfl, by decide, by rfl⟩

/-- C3 (amended): `scan_lists` runs a substitution pass exactly for the kept
entries — those whose following entry equals value+1, whose preceding entry
equals value−1, or which satisfy the 9-to-0 wrap — in order; each pass
rewrites every current match of the extraction regex whose trimmed, chomped
text equals the kept entry's decimal value, so entries sharing a kept value
are rewritten even when not themselves adjacent. -/
theorem scan_lists_passes_exactly_kept_entries
    (text : List Char) (regex1 regex2 : Pat) (replacement : Char)
    (strip : Bool) :
    scanLists text regex1 regex2 replacement strip =
      scanListsAmended text regex1 regex2 replacement strip := by
  simp only [scanLists, scanListsAmended, keptEntries]
  congr 1
  funext listArray
  exact foldl_guard_eq_filter _ _ _ _

/-- C4 (counterexample): on `"ab 12♨ x\rcd 34♨ y"` the source's first
anti-pattern fires through its `♨.+\r.+♨` branch, so the code inserts no
line breaks, while the claim's two anti-patterns (`♨.+\n.+♨` and
`for\s\d{1,2}♨\s[a-z]`) both fail to match and the claimed stage rewrites
the spaces before the items to `\r`: the claimed iff condition is not the
code's. -/
theorem numbered_periods_antipattern_misses_cr :
    addLineBreaksForNumberedListWithPeriods "ab 12♨ x\rcd 34♨ y".data =
      "ab 12♨ x\rcd 34♨ y".data ∧
    claimAddLineBreaksPeriods "ab 12♨ x\rcd 34♨ y".data =
      "ab\r12♨ x\rcd\r34♨ y".data :=
  ⟨by rfl, by rfl⟩

/-- C4 (amended): the line-break insertion rules of the numbered-periods
pass are applied iff the text contains `♨` and none of `♨.+\n.+♨`,
`♨.+\r.+♨` (the branch the claim omits) and `for\s\d{1,2}♨\s[a-z]` matches;
and the subsequent substitution leaves no `♨` in the text (every `♨` is
replaced by `∯`). -/
theorem numbered_periods_stage_amended (text : List Char) :
    addLineBreaksForNumberedListWithPeriods text =
      amendedAddLineBreaksPeriods text ∧
    '♨' ∉ replaceAllPat text (.lit '♨') (fun _ => ['∯']) := by
  constructor
  · have hsplit : (findIter text findNumberedList1).isEmpty =
        ((findIter text claimAntiPattern1).isEmpty &&
         (findIter text antiPattern1CR).isEmpty) :=
      findIter_alt_isEmpty consuming_seq_lit consuming_seq_lit
    have hcond : (text.contains '♨' &&
        (findIter text findNumberedList1).isEmpty &&
        (findIter text findNumberedList2).isEmpty) =
        (text.contains '♨' && (findIter text claimAntiPattern1).isEmpty &&
         (findIter text antiPattern1CR).isEmpty &&
         (findIter text findNumberedList2).isEmpty) := by
      rw [hsplit, ← Bool.and_assoc]
    simp only [addLineBreaksForNumberedListWithPeriods,
      amendedAddLineBreaksPeriods, numberedPeriodsRules, hcond]
  · intro hmem
    rw [replaceAllPat_lit, List.mem_flatMap] at hmem
    obtain ⟨ch, _, hmem2⟩ := hmem
    by_cases hc : (ch == '♨') = true
    · rw [if_pos hc] at hmem2
      simp at hmem2
    · rw [if_neg hc] at hmem2
      simp only [List.mem_singleton] at hmem2
      rw [hmem2] at hc
      simp at hc

/-- The list-item replacement half of the totality claim does hold:
`add_line_break` returns `Ok` for every input text — every match of the two
numbered-list detector regexes, after trimming leading whitespace, is a
one- or two-digit ASCII string that parses as an `i32`, so the error branch
of `scan_lists` is unreachable. -/
theorem addLineBreak_never_fails :
    ∀ text, (addLineBreak text).isOk = true := by
  intro text
  simp only [addLineBreak]
  obtain ⟨o5, h5⟩ := scanLists_periods_ok
    (iterateAlphabetArray
      (iterateAlphabetArray
        (iterateAlphabetArray
          (iterateAlphabetArray text alphabeticalListWithPeriods false
            false)
          alphabeticalListWithParens true false)
        alphabeticalListWithPeriods false true)
      alphabeticalListWithParens true true)
  rw [h5]
  simp only [Except.bind]
  obtain ⟨o8, h8⟩ := scanLists_parens_ok
    (replaceAllPat (addLineBreaksForNumberedListWithPeriods o5)
      (.lit '♨') (fun _ => ['∯']))
  rw [h8]
  rfl

/-- C2 (code bug): the per-abbreviation runtime regex compilation inside
`search_for_abbreviations_in_string` can fail, so the `unwrap` after it can
panic.  On the text `"e.g e(g. x"`, the search regex of the vocabulary
entry `e.g` — `(?:^|\s|\r|\n)e.g`, its period an unescaped metacharacter —
matches both `e.g` and `" e(g"`; for each match the shadowed `abbr` is the
trimmed matched text, interpolated verbatim into the general
period-masking template (the next-word-start regex matches nothing, so
`upper` is false and neither match is skipped).  The pattern built from
the second match, `e(g`, leaves its lookbehind group unclosed, and the
modelled onig compile rejects it — against the claim (and the safety
comment the source itself attaches to the `unwrap`) that every runtime
pattern compiles. -/
theorem abbr_runtime_pattern_unbalanced :
    runtimeAbbrPatterns "e.g e(g. x".data "e.g".data =
      [generalAbbrPattern "e.g".data, generalAbbrPattern "e(g".data] ∧
    onigGroupsBalanced (generalAbbrPattern "e.g".data) = true ∧
    onigGroupsBalanced (generalAbbrPattern "e(g".data) = false :=
  ⟨by rfl, by rfl, by rfl⟩

/-- C5 (counterexample): in `"a. x b. y b. z"` the rank array is
`[0, 1, 1]` and the marker at index 2 is skipped by the adjacency test
(`is_strange` holds), yet its occurrence is rewritten anyway: the pass for
the kept index-1 marker `b` rewrites every detector-matched occurrence of
the same letter, so the rewrite is not confined to the kept marker's own
occurrence. -/
theorem alphabet_rewrite_touches_unkept_marker :
    isStrange [0, 1, 1] 2 = true ∧
    iterateAlphabetArray "a. x b. y b. z".data alphabeticalListWithPeriods
        false false = "\ra∯ x \rb∯ y \rb∯ z".data :=
  ⟨by decide, by rfl⟩

/-- C5 (amended): for every kept marker the pass rewrites each
detector-matched occurrence of that marker (not only the marker's own
occurrence) exactly in the claimed forms — `<letter>.` becomes
`\r<letter>∯`; `(<letter>` becomes `\r&✂&<letter>` with the closing paren
left in place; a bare `<letter>` before `)` becomes `\r<letter>` — and all
other matches and all text outside the matches are unchanged. -/
theorem alphabet_rewrite_forms (text target : List Char)
    (htarget : target.all lowerAZ = true) :
    replaceAlphabetList text target =
      replaceAllPat text alphabeticalListLettersAndPeriodsRegex
        (claimPeriodRewrite target) ∧
    replaceAlphabetListParens text target =
      replaceAllPat text extractAlphabeticalListLettersRegex
        (claimParenRewrite target) :=
  ⟨replaceAlphabetList_eq_claim_aux text target,
   replaceAlphabetListParens_eq_claim_aux text target htarget⟩

/-- C5 (witness): the rewrite-form equations at the concrete text
`"a. x (b) y"` and marker `b`. -/
theorem alphabet_rewrite_forms_witness :
    ("b".data.all lowerAZ = true) ∧
    (replaceAlphabetList "a. x (b) y".data "b".data =
        replaceAllPat "a. x (b) y".data alphabeticalListLettersAndPeriodsRegex
          (claimPeriodRewrite "b".data) ∧
      replaceAlphabetListParens "a. x (b) y".data "b".data =
        replaceAllPat "a. x (b) y".data extractAlphabeticalListLettersRegex
          (claimParenRewrite "b".data)) :=
  ⟨by decide, alphabet_rewrite_forms "a. x (b) y".data "b".data (by decide)⟩

/-- C8: for every input string, `splitlines_keepends` yields only lines that
are a terminator-free body optionally followed by exactly one of the eleven
terminators `\r\n`, `\n`, `\r`, `\x0b`, `\x0c`, `\x1c`, `\x1d`, `\x1e`,
U+0085, U+2028, U+2029 attached at the end (so it splits exactly on those
terminators and keeps each attached to its preceding line), and matching is
leftmost-first: no `\r\n` occurrence is torn across two yielded lines — no
yielded line ends in `\r` while the next begins with `\n`. -/
theorem splitlines_line_shapes (s : List Char) :
    (splitlinesKeepends s).all lineShapeB = true ∧
      crlfJoinedB (splitlinesKeepends s) = true := by
  constructor
  · rw [List.all_eq_true]
    intro l hl
    simp only [splitlinesKeepends] at hl
    exact splitlinesAux_shape (by omega) l hl
  · simp only [splitlinesKeepends]
    exact splitlinesAux_crlf (by omega)

/-- C9: for every input string `s`, concatenating in order all lines yielded
by `splitlines_keepends s` gives back exactly `s`, and every yielded line is
non-empty. -/
theorem splitlines_reassembles (s : List Char) :
    (splitlinesKeepends s).flatten = s ∧
      (splitlinesKeepends s).all (fun l => !l.isEmpty) = true := by
  constructor
  · simp only [splitlinesKeepends]
    rw [splitlinesAux_flatten, slice_eq]
    simp
  · rw [List.all_eq_true]
    intro l hl
    simp only [splitlinesKeepends] at hl
    have hne := splitlinesAux_ne_nil hl
    cases l with
    | nil => exact absurd rfl hne
    | cons a t => rfl

end PragSeg
